import Mathlib

/-!
# Verification of the outclaw specifier-resolution and local-registry subsystem

This file gives a shallow embedding of the outclaw CLI's core logic:

* the skill-specifier resolver (`parseSkillSpecifier` in the install command),
* the registry fetcher (`fetchFromRegistry`),
* the local registry / skill manager (`installSkill`, `uninstallSkill`,
  `updateManifest`, `removeFromManifest`, `skillExists`, `getManifest`),
* the skill-document parser, frontmatter schema and generator
  (`SkillParser.parse`, `SkillFrontmatterSchema`, `generateSkillMd`).

JavaScript strings are embedded as Lean `String`s (lists of characters);
the JavaScript string operations used by the source (`split`, `slice`,
`includes`, `startsWith`, `trim`, `join`) are defined below with JS
semantics.  Asynchronous file-system and network effects are embedded as
explicit state passing (`FsState`) and as function-valued environments
(`RegistryClient`); `throw` is embedded as `Option`/`Except` failure.
-/

namespace Outclaw

/-! ## Character-list utilities with JavaScript semantics -/

/-- JS whitespace (the fragment appearing in this code base: space, tab, CR, LF).
Used to embed `String.prototype.trim`. -/
def wsChar (c : Char) : Bool :=
  c = ' ' || c = '\t' || c = '\n' || c = '\r'

/-- `l` with leading and trailing whitespace removed (JS `trim` on char lists). -/
def trimList (l : List Char) : List Char :=
  ((l.dropWhile wsChar).reverse.dropWhile wsChar).reverse

/-- JS `s.trim()`. -/
def jsTrim (s : String) : String :=
  ⟨trimList s.data⟩

/-- JS `s.split(sep)` for a single-character separator, on char lists.
Always returns a non-empty list; splitting the empty list yields `[[]]`,
matching `"".split(c) === [""]`. -/
def splitCh (c : Char) : List Char → List (List Char)
  | [] => [[]]
  | x :: xs =>
    match splitCh c xs with
    | [] => [[x]]
    | h :: t => if x = c then [] :: h :: t else (x :: h) :: t

/-- JS `s.split(c)` for a one-character separator string. -/
def jsSplit (c : Char) (s : String) : List String :=
  (splitCh c s.data).map String.mk

/-- JS `arr.join(sep)` inverse of `splitCh`, on char lists. -/
def joinCh (c : Char) : List (List Char) → List Char
  | [] => []
  | [l] => l
  | l :: l' :: ls => l ++ c :: joinCh c (l' :: ls)

/-- JS `arr.join(sep)` for a one-character separator string. -/
def jsJoin (c : Char) (l : List String) : String :=
  ⟨joinCh c (l.map String.data)⟩

/-- JS `s.startsWith(p)`. -/
def jsStartsWith (p s : String) : Bool :=
  p.data.isPrefixOf s.data

/-- JS `s.endsWith(p)`. -/
def jsEndsWith (p s : String) : Bool :=
  p.data.isSuffixOf s.data

/-- `pat` occurs as a contiguous run inside `l`. -/
def hasInfix (pat : List Char) : List Char → Bool
  | [] => pat.isEmpty
  | x :: xs => pat.isPrefixOf (x :: xs) || hasInfix pat xs

/-- JS `s.includes(pat)`. -/
def jsIncludes (s pat : String) : Bool :=
  hasInfix pat.data s.data

/-- JS `s.slice(n)` for `n ≥ 0`. -/
def strDrop (n : Nat) (s : String) : String :=
  ⟨s.data.drop n⟩

/-- JS `s.slice(0, -n)` for `n ≥ 0` (drop `n` characters from the end). -/
def strDropRight (n : Nat) (s : String) : String :=
  ⟨s.data.take (s.data.length - n)⟩

/-- JS `s.toLowerCase()` on the ASCII fragment used by this code base. -/
def strToLower (s : String) : String :=
  ⟨s.data.map Char.toLower⟩

/-- Truthiness of a JS value of static type `string | undefined`:
`undefined` and the empty string are falsy. -/
def truthyStr : Option String → Bool
  | some s => s ≠ ""
  | none => false

/-- JS `a || b || ''` where `a`, `b` have static type `string | undefined`. -/
def jsOrStr (a b : Option String) : String :=
  if truthyStr a then a.getD "" else if truthyStr b then b.getD "" else ""

/-! ## The specifier resolver (`parseSkillSpecifier`, src install command) -/

/-- The `ParsedSource` interface of the install command: the tagged result of
specifier classification.  The `github` variant (the spec's hosted-ref) carries
`owner`, optional `repo`, optional `ref` and optional `skillPath` (subpath);
`url` carries the raw URL; `localPath` carries the raw path (the source's
`local` variant; `local` is a Lean keyword); `registry` carries the
id-or-slug (`registryId`). -/
inductive ParsedSource where
  | github (owner : String) (repo : Option String) (ref : Option String)
      (skillPath : Option String)
  | url (url : String)
  | localPath (localPath : String)
  | registry (registryId : String)
deriving DecidableEq

/-- Characters allowed in a URL scheme after the first letter. -/
def schemeChar (c : Char) : Bool :=
  c.isAlphanum || c = '+' || c = '-' || c = '.'

/-- A parsed URL record; only `pathname` is consumed by the resolver. -/
structure UrlRec where
  pathname : String
deriving DecidableEq

/-- A partial model of the WHATWG `new URL(s)` platform constructor, used
only to give the `github.com` branch of the resolver a definition: a scheme
is required (a letter followed by scheme characters and a colon), otherwise
the constructor throws (`none`); for the special schemes `http`, `https`,
`ws`, `wss`, `ftp` the leading slashes are skipped, a non-empty host is
required, and `pathname` is the part between the host and any `?`/`#`,
defaulting to `"/"`; for other schemes the path is opaque.  This model does
NOT implement `new URL`'s input whitespace stripping or host validation
(forbidden host code points, domain-to-ASCII), so its success set diverges
from the platform call on such inputs; for that reason no theorem below
hypothesises `urlParse`'s success — the resolver totality theorem keeps its
inputs out of this branch, and the concrete throw counterexample
`"github.com/foo/bar"` has no scheme at all, where this model and `new URL`
agree (both fail). -/
def urlParse (s : String) : Option UrlRec :=
  match s.data with
  | [] => none
  | c :: cs =>
    if c.isAlpha then
      let scheme := c :: cs.takeWhile schemeChar
      match cs.dropWhile schemeChar with
      | ':' :: afterColon =>
        if String.mk (scheme.map Char.toLower) ∈ ["http", "https", "ws", "wss", "ftp"] then
          let afterSlashes := afterColon.dropWhile (fun ch => ch = '/' || ch = '\\')
          let host := afterSlashes.takeWhile (fun ch => ch != '/' && ch != '\\' && ch != '?' && ch != '#')
          if host = [] then none
          else
            let pathRaw := (afterSlashes.drop host.length).takeWhile (fun ch => ch != '?' && ch != '#')
            some ⟨if pathRaw = [] then "/" else String.mk pathRaw⟩
        else
          some ⟨String.mk (afterColon.takeWhile (fun ch => ch != '?' && ch != '#'))⟩
      | _ => none
    else none

/-- The `github:` shorthand branch of `parseSkillSpecifier`, applied to
`specifier.slice(7)`.  Mirrors the source line by line, including the
ternary on `ownerRepo.includes('/')` (whose first arm is unreachable since
`ownerRepo` is a piece of a `'/'`-split). -/
def parseGithubShorthand (rest : String) : ParsedSource :=
  match jsSplit '/' rest with
  | [] => ParsedSource.github "" (some "") none none
  | ownerRepo :: pathParts =>
    let pair : String × Option String :=
      if jsIncludes ownerRepo "/" then
        ((jsSplit '/' ownerRepo).headD "",
          some (jsJoin '/' ((jsSplit '/' ownerRepo).drop 1)))
      else (ownerRepo, pathParts.head?)
    let owner := pair.1
    let repoWithRef := pair.2
    let repo1 : String := jsOrStr repoWithRef pathParts.head?
    let repoRef : String × Option String :=
      if jsIncludes repo1 "@" then
        match jsSplit '@' repo1 with
        | r :: rf :: _ => (r, some rf)
        | _ => (repo1, none)
      else (repo1, none)
    let skillPath := jsJoin '/' (pathParts.drop 1)
    ParsedSource.github owner (some repoRef.1) repoRef.2
      (if skillPath = "" then none else some skillPath)

/-- The `github.com` URL branch of `parseSkillSpecifier`, applied to the
successfully constructed URL record.  `parts[1]` may be `undefined`
(`repo?: string`); `parts[2] === 'tree' && parts[3]` requires a defined,
non-empty (truthy) `parts[3]`. -/
def parseGithubUrl (u : UrlRec) : ParsedSource :=
  let parts := jsSplit '/' (strDrop 1 u.pathname)
  let owner := parts.headD ""
  let repo0 := parts[1]?
  let repo1 : Option String :=
    match repo0 with
    | some r => some (if jsEndsWith ".git" r then strDropRight 4 r else r)
    | none => none
  let ref : Option String :=
    match parts[2]?, parts[3]? with
    | some t, some r4 => if t = "tree" && r4 ≠ "" then some r4 else none
    | _, _ => none
  let skillPath := jsJoin '/' (parts.drop 4)
  ParsedSource.github owner repo1 ref
    (if skillPath = "" then none else some skillPath)

/-- The bare `owner/repo[@ref]` shorthand branch (rule 5). -/
def parseOwnerRepo (specifier : String) : ParsedSource :=
  let parts := jsSplit '/' specifier
  let owner := parts.headD ""
  match parts[1]? with
  | none => ParsedSource.github owner none none none
  | some r =>
    if jsIncludes r "@" then
      match jsSplit '@' r with
      | a :: b :: _ => ParsedSource.github owner (some a) (some b) none
      | _ => ParsedSource.github owner (some r) none none
    else ParsedSource.github owner (some r) none none

/-- The UUID v4-shaped pattern
`/^[0-9a-f]{8}-[0-9a-f]{4}-[0-9a-f]{4}-[0-9a-f]{4}-[0-9a-f]{12}$/i`:
exactly five `'-'`-separated groups of hexadecimal digits with lengths
8, 4, 4, 4, 12 (the anchored group structure is equivalent to this split). -/
def hexDigit (c : Char) : Bool :=
  c.isDigit || ('a' ≤ c && c ≤ 'f') || ('A' ≤ c && c ≤ 'F')

/-- `UUID_PATTERN.test s`. -/
def uuidPattern (s : String) : Bool :=
  match jsSplit '-' s with
  | [a, b, c, d, e] =>
    a.data.length = 8 && b.data.length = 4 && c.data.length = 4 &&
    d.data.length = 4 && e.data.length = 12 &&
    a.data.all hexDigit && b.data.all hexDigit && c.data.all hexDigit &&
    d.data.all hexDigit && e.data.all hexDigit
  | _ => false

/-- `parseSkillSpecifier` from the install command: first-match-wins
classification of a raw specifier.  `none` marks a throw of the `github.com`
branch's `new URL` call, modelled by the partial `urlParse`; every other
branch returns a variant unconditionally, mirroring the source. -/
def parseSkillSpecifier (specifier : String) : Option ParsedSource :=
  if jsStartsWith "github:" specifier then
    some (parseGithubShorthand (strDrop 7 specifier))
  else if jsIncludes specifier "github.com" then
    match urlParse specifier with
    | none => none
    | some u => some (parseGithubUrl u)
  else if jsStartsWith "http://" specifier || jsStartsWith "https://" specifier then
    some (ParsedSource.url specifier)
  else if jsStartsWith "./" specifier || jsStartsWith "/" specifier
      || jsStartsWith "../" specifier then
    some (ParsedSource.localPath specifier)
  else if jsIncludes specifier "/" then
    some (parseOwnerRepo specifier)
  else if uuidPattern specifier then
    some (ParsedSource.registry specifier)
  else
    some (ParsedSource.registry specifier)

/-! ## The registry fetcher (`fetchFromRegistry`, src install command) -/

/-- A registry search result (`WorkflowSearchResult`), restricted to the
fields the fetcher consumes. -/
structure Workflow where
  id : String
  title : String
  slug : String
deriving DecidableEq

/-- The `ApiClient` surface consumed by `fetchFromRegistry`, embedded as a
function-valued environment: `searchWorkflows query limit` is the workflow
list of the search response, `downloadWorkflow id` the downloaded content,
`getWorkflowTitle id` the `title` of the get-by-id response. -/
structure RegistryClient where
  searchWorkflows : String → Nat → List Workflow
  downloadWorkflow : String → String
  getWorkflowTitle : String → String

/-- Error kinds thrown by `fetchFromRegistry`. -/
inductive FetchErr where
  | notFound
deriving DecidableEq

/-- The result of `fetchFromRegistry`, plus two fields recording its side
effects: `warned` (the non-fatal `logger.warn` ambiguity message) and
`searchCalls` (the `(query, limit)` arguments of every `searchWorkflows`
HTTP request it issued). -/
structure FetchResult where
  name : String
  content : String
  workflowId : String
  warned : Bool
  searchCalls : List (String × Nat)
deriving DecidableEq

/-- `content.match(/^name:\s*(.+)$/m)` followed by `.trim()`, with the given
fallback: the first line starting with `name:` and having at least one
further character yields that remainder trimmed (a whitespace-only remainder
trims to `""` in both the regex capture and this embedding). -/
def extractName (content : String) (fallback : String) : String :=
  match (jsSplit '\n' content).find?
      (fun l => jsStartsWith "name:" l && strDrop 5 l ≠ "") with
  | some l => jsTrim (strDrop 5 l)
  | none => fallback

/-- The exact-match predicate of `fetchFromRegistry`:
`w.title.toLowerCase() === registryId.toLowerCase() || w.slug === registryId`.
Note the slug comparison is case-sensitive. -/
def isExactMatch (registryId : String) (w : Workflow) : Bool :=
  strToLower w.title == strToLower registryId || w.slug == registryId

/-- `fetchFromRegistry` from the install command.  A UUID id downloads
directly (and fetches the record for a title fallback); any other term
performs one search with `limit: 5`, throws `NotFound` on zero results,
prefers the first exact match, otherwise takes the first result and warns
when the search returned more than one result. -/
def fetchFromRegistry (client : RegistryClient) (registryId : String) :
    Except FetchErr FetchResult :=
  if uuidPattern registryId then
    let content := client.downloadWorkflow registryId
    let title := client.getWorkflowTitle registryId
    Except.ok ⟨extractName content title, content, registryId, false, []⟩
  else
    let results := client.searchWorkflows registryId 5
    if results.length = 0 then
      Except.error FetchErr.notFound
    else
      let exactMatch := results.find? (isExactMatch registryId)
      let workflow := match exactMatch with
        | some w => w
        | none => results.headD ⟨"", "", ""⟩
      let warned := exactMatch.isNone && results.length > 1
      let content := client.downloadWorkflow workflow.id
      Except.ok ⟨extractName content workflow.title, content, workflow.id,
        warned, [(registryId, 5)]⟩

/-! ## The local registry (`SkillManager`, src core) -/

/-- Installation scope (`Scope` in src utils/paths). -/
inductive Scope where
  | global
  | project
deriving DecidableEq

/-- Source types of the manifest schema (`SkillSourceSchema.type`). -/
inductive SourceType where
  | registry
  | github
  | git
  | localSrc
  | url
deriving DecidableEq

/-- `SkillSource` of the manifest schema. -/
structure SkillSource where
  type : SourceType
  url : Option String := none
  ref : Option String := none
  id : Option String := none
deriving DecidableEq

/-- `SkillManifest`: one manifest entry. -/
structure SkillManifest where
  name : String
  version : String
  installedAt : String
  source : SkillSource
  scope : Scope
deriving DecidableEq

/-- `OutclawManifest`: the parsed lock-file structure. -/
structure OutclawManifest where
  version : Nat
  skills : List SkillManifest
deriving DecidableEq

/-- The on-disk state of the scope's lock file: absent (read throws),
present but unparsable (`JSON.parse` throws), or a stored manifest.  Writes
serialise with `JSON.stringify`, which round-trips with `JSON.parse` for
this structure, so a write is embedded as storing the parsed form. -/
inductive ManifestFile where
  | absent
  | corrupt
  | stored (m : OutclawManifest)
deriving DecidableEq

/-- One skill directory: an association of file names to contents. -/
structure SkillDir where
  files : List (String × String)
deriving DecidableEq

/-- The on-disk state owned by one `SkillManager` scope: the skill
directories under the scope's skills root, keyed by skill name (the
directory `<skills-root>/<name>`), and the scope's lock file. -/
structure FsState where
  dirs : List (String × SkillDir)
  manifest : ManifestFile
deriving DecidableEq

/-- Errors thrown by the skill manager. -/
inductive SkillErr where
  | conflict
  | notFound
deriving DecidableEq

instance {ε α : Type} [DecidableEq ε] [DecidableEq α] :
    DecidableEq (Except ε α) := fun x y =>
  match x, y with
  | Except.ok a, Except.ok b =>
    if h : a = b then Decidable.isTrue (congrArg Except.ok h)
    else Decidable.isFalse (fun e => h (Except.ok.inj e))
  | Except.ok _, Except.error _ => Decidable.isFalse (fun e => Except.noConfusion e)
  | Except.error _, Except.ok _ => Decidable.isFalse (fun e => Except.noConfusion e)
  | Except.error a, Except.error b =>
    if h : a = b then Decidable.isTrue (congrArg Except.error h)
    else Decidable.isFalse (fun e => h (Except.error.inj e))

/-- `pathExists(skillPath)`: the skill's directory exists. -/
def dirExists (name : String) (fs : FsState) : Bool :=
  (fs.dirs.lookup name).isSome

/-- `SkillManager.skillExists`: `pathExists(path.join(skillPath, 'SKILL.md'))`
— true iff the `SKILL.md` file inside the skill directory is present. -/
def skillExists (name : String) (fs : FsState) : Bool :=
  match fs.dirs.lookup name with
  | some d => (d.files.lookup "SKILL.md").isSome
  | none => false

/-- Read a file inside a skill directory. -/
def readSkillFile (name file : String) (fs : FsState) : Option String :=
  match fs.dirs.lookup name with
  | some d => d.files.lookup file
  | none => none

/-- Set a key in an association list: replace the first binding in place if
present, else append. -/
def setAssoc {α : Type} (k : String) (v : α) :
    List (String × α) → List (String × α)
  | [] => [(k, v)]
  | (k', v') :: rest =>
    if k' = k then (k, v) :: rest else (k', v') :: setAssoc k v rest

/-- `ensureDir(skillPath)`: `fs.mkdir recursive` — creates the directory if
absent, leaves an existing directory (and its files) untouched. -/
def ensureDir (name : String) (fs : FsState) : FsState :=
  if (fs.dirs.lookup name).isSome then fs
  else { fs with dirs := fs.dirs ++ [(name, ⟨[]⟩)] }

/-- `fs.writeFile(path.join(skillPath, file), content)`. -/
def writeSkillFile (name file content : String) (fs : FsState) : FsState :=
  { fs with dirs :=
      (fs.dirs.map (fun p =>
        if p.1 = name then (p.1, ⟨setAssoc file content p.2.files⟩) else p)) }

/-- `SkillManager.getManifest`: read and parse the lock file; an absent or
unparsable file yields the empty manifest `{version: 1, skills: []}`. -/
def getManifest (fs : FsState) : OutclawManifest :=
  match fs.manifest with
  | ManifestFile.stored m => m
  | _ => ⟨1, []⟩

/-- The update-or-add step of `SkillManager.updateManifest`:
`findIndex` by name, replace in place when found, else push. -/
def upsertEntry (skills : List SkillManifest) (name : String)
    (entry : SkillManifest) : List SkillManifest :=
  match skills.findIdx? (fun s => s.name == name) with
  | some i => skills.set i entry
  | none => skills ++ [entry]

/-- `SkillManager.updateManifest`: full read-modify-write upsert of the
entry for `name` — replace in place at the first index whose entry has that
name, else append; `version` is fixed at `"1.0.0"` and `installedAt` is the
current time (passed in as `now`). -/
def updateManifest (scope : Scope) (name : String) (source : SkillSource)
    (now : String) (fs : FsState) : FsState :=
  let manifest := getManifest fs
  let entry : SkillManifest := ⟨name, "1.0.0", now, source, scope⟩
  { fs with manifest :=
      ManifestFile.stored ⟨manifest.version, upsertEntry manifest.skills name entry⟩ }

/-- `SkillManager.removeFromManifest`: read the lock file, filter out the
entry for `name`, and rewrite it; if the file is missing or unparsable the
thrown error is caught and nothing happens. -/
def removeFromManifest (name : String) (fs : FsState) : FsState :=
  match fs.manifest with
  | ManifestFile.stored m =>
    { fs with manifest :=
        ManifestFile.stored ⟨m.version, m.skills.filter (fun s => s.name ≠ name)⟩ }
  | _ => fs

/-- `SkillManager.installSkill`: throws `Conflict` when the skill directory
exists and `force` is false; otherwise ensures the directory, writes
`SKILL.md` with the given content, and upserts the manifest entry. -/
def installSkill (scope : Scope) (name content : String) (force : Bool)
    (source : SkillSource) (now : String) (fs : FsState) :
    Except SkillErr FsState :=
  if !force && dirExists name fs then
    Except.error SkillErr.conflict
  else
    let fs1 := ensureDir name fs
    let fs2 := writeSkillFile name "SKILL.md" content fs1
    Except.ok (updateManifest scope name source now fs2)

/-- `SkillManager.uninstallSkill`: throws `NotFound` when the skill
directory does not exist; otherwise removes the directory recursively and
filters the entry out of the manifest. -/
def uninstallSkill (name : String) (fs : FsState) : Except SkillErr FsState :=
  if !dirExists name fs then
    Except.error SkillErr.notFound
  else
    let fs1 : FsState := { fs with dirs := fs.dirs.filter (fun p => p.1 ≠ name) }
    Except.ok (removeFromManifest name fs1)

/-- An install or uninstall operation, for stating invariants over
arbitrary operation sequences. -/
inductive Op where
  | install (name content : String) (force : Bool) (source : SkillSource)
      (now : String)
  | uninstall (name : String)

/-- Apply an operation; a thrown error leaves the state unchanged (the
source throws before any mutation). -/
def applyOp (scope : Scope) (fs : FsState) : Op → FsState
  | Op.install name content force source now =>
    match installSkill scope name content force source now fs with
    | Except.ok fs' => fs'
    | Except.error _ => fs
  | Op.uninstall name =>
    match uninstallSkill name fs with
    | Except.ok fs' => fs'
    | Except.error _ => fs

/-- Apply a sequence of operations in order. -/
def applyOps (scope : Scope) (ops : List Op) (fs : FsState) : FsState :=
  ops.foldl (applyOp scope) fs

/-- The manifest invariant: the stored manifest has at most one entry per
name (hence at most one per `(name, scope)` pair); an absent or corrupt
lock file trivially satisfies it. -/
def manifestInv (fs : FsState) : Prop :=
  match fs.manifest with
  | ManifestFile.stored m => (m.skills.map SkillManifest.name).Nodup
  | _ => True

instance (fs : FsState) : Decidable (manifestInv fs) := by
  unfold manifestInv
  match fs.manifest with
  | ManifestFile.stored m => exact List.nodupDecidable _
  | ManifestFile.absent => exact inferInstanceAs (Decidable True)
  | ManifestFile.corrupt => exact inferInstanceAs (Decidable True)

/-- Number of manifest entries recorded for `name`. -/
def countName (name : String) (fs : FsState) : Nat :=
  match fs.manifest with
  | ManifestFile.stored m => (m.skills.filter (fun s => s.name == name)).length
  | _ => 0

/-! ## The skill-document parser, frontmatter schema and generator

`SkillParser.parse` reads `SKILL.md`, splits frontmatter from body with
`gray-matter`, validates the frontmatter with `SkillFrontmatterSchema`
(Zod) and returns the fields together with the trimmed body.  The
`gray-matter`/`js-yaml` pair is third-party; it is embedded here on the
fragment this code base produces and consumes: an LF-delimited document
whose frontmatter block is bounded by `---` lines and consists of
`key: value` lines with scalar values.  Scalar retyping follows YAML:
an empty value is null, `true`/`false` are booleans, an all-digit value
is a number, anything else is the trimmed string.  Duplicate mapping keys
make `js-yaml` throw.  Block/flow collections, quoting, comments, blank
lines inside the block and CRLF are outside the embedded fragment (such
documents are treated as parse failures here, which only shrinks the set
of accepted documents). -/

/-- A scalar YAML value as delivered by `gray-matter` to the schema. -/
inductive RawVal where
  | vnull
  | vbool (b : Bool)
  | vnum (raw : String)
  | vstr (s : String)
deriving DecidableEq

/-- YAML retyping of a trimmed scalar on the embedded fragment. -/
def retypeScalar (v : String) : RawVal :=
  if v = "" then RawVal.vnull
  else if v = "true" then RawVal.vbool true
  else if v = "false" then RawVal.vbool false
  else if v.data.all Char.isDigit then RawVal.vnum v
  else RawVal.vstr v

/-- Parse one `key: value` line: the key is everything before the first
colon, the value the retyped trim of everything after it; a line without a
colon is invalid. -/
def lineKV (line : String) : Option (String × RawVal) :=
  let keyChars := line.data.takeWhile (fun c => c != ':')
  if keyChars.length = line.data.length then none
  else some (String.mk keyChars,
    retypeScalar (jsTrim ⟨line.data.drop (keyChars.length + 1)⟩))

/-- Parse the frontmatter block line by line, rejecting duplicate keys
(`js-yaml` throws on a duplicated mapping key). -/
def parseYaml (acc : List (String × RawVal)) :
    List String → Option (List (String × RawVal))
  | [] => some acc
  | l :: ls =>
    match lineKV l with
    | none => none
    | some (k, v) =>
      if (acc.map Prod.fst).contains k then none
      else parseYaml (acc ++ [(k, v)]) ls

/-- `gray-matter` on the plain-scalar fragment: a document starting with a
`---` line has its frontmatter parsed up to the next `---` line and its
content is everything after that line; a document not starting with `---`
has empty data and is all content.  The line parser above models only
plain unquoted single-line `key: value` scalars — quoted scalars, block
scalars, flow collections, comments, anchors, tags and multi-line values
of real `js-yaml` are outside the model (a quoted value such as `'true'`
is carried verbatim with its quotes here, while `js-yaml` would strip
them).  Theorems whose truth must transfer to the real parser therefore
restrict themselves to this fragment via `plainFrontmatter`. -/
def matterParse (doc : String) : Option (List (String × RawVal) × String) :=
  match jsSplit '\n' doc with
  | [] => some ([], doc)
  | first :: rest =>
    if first = "---" then
      match rest.findIdx? (fun l => l == "---") with
      | some i =>
        match parseYaml [] (rest.take i) with
        | some kvs => some (kvs, jsJoin '\n' (rest.drop (i + 1)))
        | none => none
      | none => none
    else some ([], doc)

/-- The `context` closed enum of the frontmatter schema. -/
inductive ContextType where
  | normal
  | fork
deriving DecidableEq

/-- The `author` union of the frontmatter schema: a plain string or an
object with `name` and optional `email`/`url`.  (The object form cannot
occur in the scalar YAML fragment embedded here.) -/
inductive AuthorVal where
  | astr (s : String)
  | aobj (name : String) (email : Option String) (url : Option String)
deriving DecidableEq

/-- The output of `SkillFrontmatterSchema` (src schemas/skill.schema):
hyphenated keys are camel-cased (`disableModelInvocation` is
`disable-model-invocation`, `userInvocable` is `user-invocable`,
`allowedTools` is `allowed-tools`, `argumentHint` is `argument-hint`).
The two boolean fields default to `false`/`true`; `allowed-tools` is
normalised to a list. -/
structure SkillFrontmatter where
  name : String
  description : String
  version : Option String := none
  disableModelInvocation : Bool := false
  userInvocable : Bool := true
  allowedTools : Option (List String) := none
  argumentHint : Option String := none
  model : Option String := none
  context : Option ContextType := none
  agent : Option String := none
  license : Option String := none
  author : Option AuthorVal := none
  keywords : Option (List String) := none
  repository : Option String := none
deriving DecidableEq

/-- Characters allowed by the `name` regex `^[a-z0-9-]+$`. -/
def nameChar (c : Char) : Bool :=
  ('a' ≤ c && c ≤ 'z') || c.isDigit || c = '-'

/-- The `version` regex `^\d+\.\d+\.\d+$`. -/
def semverOK (s : String) : Bool :=
  match jsSplit '.' s with
  | [a, b, c] =>
    a ≠ "" && b ≠ "" && c ≠ "" &&
    a.data.all Char.isDigit && b.data.all Char.isDigit && c.data.all Char.isDigit
  | _ => false

/-- An optional `z.string()` field: absent is fine, any non-string value
fails. -/
def parseOptStr (data : List (String × RawVal)) (k : String) :
    Option (Option String) :=
  match data.lookup k with
  | none => some none
  | some (RawVal.vstr s) => some (some s)
  | some _ => none

/-- An optional `z.boolean()` field with a `.default(dflt)`. -/
def parseBoolD (data : List (String × RawVal)) (k : String) (dflt : Bool) :
    Option Bool :=
  match data.lookup k with
  | none => some dflt
  | some (RawVal.vbool b) => some b
  | some _ => none

/-- The required `name` field: `z.string().min(1).regex(/^[a-z0-9-]+$/)`. -/
def parseNameField (data : List (String × RawVal)) : Option String :=
  match data.lookup "name" with
  | some (RawVal.vstr s) =>
    if s ≠ "" && s.data.all nameChar then some s else none
  | _ => none

/-- The required `description` field: `z.string().min(10)`. -/
def parseDescriptionField (data : List (String × RawVal)) : Option String :=
  match data.lookup "description" with
  | some (RawVal.vstr s) => if 10 ≤ s.data.length then some s else none
  | _ => none

/-- The optional `version` field: `z.string().regex(semver).optional()`. -/
def parseVersionField (data : List (String × RawVal)) : Option (Option String) :=
  match data.lookup "version" with
  | none => some none
  | some (RawVal.vstr s) => if semverOK s then some (some s) else none
  | some _ => none

/-- The optional `allowed-tools` field: union of string and string array,
transformed to a list (a string is split on `,` and each part trimmed). -/
def parseToolsField (data : List (String × RawVal)) :
    Option (Option (List String)) :=
  match data.lookup "allowed-tools" with
  | none => some none
  | some (RawVal.vstr s) => some (some ((jsSplit ',' s).map jsTrim))
  | some _ => none

/-- The optional `context` field: `z.enum(['normal', 'fork']).optional()`. -/
def parseContextField (data : List (String × RawVal)) :
    Option (Option ContextType) :=
  match data.lookup "context" with
  | none => some none
  | some (RawVal.vstr s) =>
    if s = "normal" then some (some ContextType.normal)
    else if s = "fork" then some (some ContextType.fork)
    else none
  | some _ => none

/-- The optional `author` field: union of string and object. -/
def parseAuthorField (data : List (String × RawVal)) :
    Option (Option AuthorVal) :=
  match data.lookup "author" with
  | none => some none
  | some (RawVal.vstr s) => some (some (AuthorVal.astr s))
  | some _ => none

/-- The optional `keywords` field: `z.array(z.string()).optional()` — a
scalar value always fails it. -/
def parseKeywordsField (data : List (String × RawVal)) :
    Option (Option (List String)) :=
  match data.lookup "keywords" with
  | none => some (none : Option (List String))
  | some _ => none

/-- `SkillFrontmatterSchema.parse` (Zod): validates and normalises the raw
frontmatter mapping, stripping unknown keys; `none` is a thrown
`ValidationError`. -/
def skillFrontmatterSchema (data : List (String × RawVal)) :
    Option SkillFrontmatter := do
  let name ← parseNameField data
  let description ← parseDescriptionField data
  let version ← parseVersionField data
  let dmi ← parseBoolD data "disable-model-invocation" false
  let ui ← parseBoolD data "user-invocable" true
  let allowedTools ← parseToolsField data
  let argumentHint ← parseOptStr data "argument-hint"
  let model ← parseOptStr data "model"
  let context ← parseContextField data
  let agent ← parseOptStr data "agent"
  let license ← parseOptStr data "license"
  let author ← parseAuthorField data
  let keywords ← parseKeywordsField data
  let repository ← parseOptStr data "repository"
  pure ⟨name, description, version, dmi, ui, allowedTools, argumentHint,
    model, context, agent, license, author, keywords, repository⟩

/-- `SkillParser.parse` applied to the contents of `SKILL.md`: split with
`gray-matter`, validate the frontmatter, return the fields with the trimmed
body (the `path` field is the parser's base path and is dropped here). -/
def parseSkillMd (doc : String) : Option (SkillFrontmatter × String) :=
  match matterParse doc with
  | none => none
  | some (data, content) =>
    match skillFrontmatterSchema data with
    | none => none
    | some fm => some (fm, jsTrim content)

/-- `Partial<SkillFrontmatter>`, the input type of `generateSkillMd`: every
field optional.  The last four fields are accepted but never emitted by the
generator. -/
structure SkillFrontmatterPartial where
  name : Option String := none
  description : Option String := none
  version : Option String := none
  disableModelInvocation : Option Bool := none
  userInvocable : Option Bool := none
  allowedTools : Option (List String) := none
  argumentHint : Option String := none
  model : Option String := none
  context : Option ContextType := none
  agent : Option String := none
  license : Option String := none
  author : Option AuthorVal := none
  keywords : Option (List String) := none
  repository : Option String := none
deriving DecidableEq

/-- View a schema output as a partial frontmatter (every field defined). -/
def SkillFrontmatter.toPartial (fm : SkillFrontmatter) : SkillFrontmatterPartial :=
  ⟨some fm.name, some fm.description, fm.version,
    some fm.disableModelInvocation, some fm.userInvocable, fm.allowedTools,
    fm.argumentHint, fm.model, fm.context, fm.agent, fm.license, fm.author,
    fm.keywords, fm.repository⟩

/-- JS `String(b)` for a boolean. -/
def boolStr (b : Bool) : String :=
  if b then "true" else "false"

/-- The serialised `context` enum value. -/
def ctxStr : ContextType → String
  | ContextType.normal => "normal"
  | ContextType.fork => "fork"

/-- JS `arr.join(sep)` for an arbitrary separator string. -/
def joinWithSep (sep : String) : List String → String
  | [] => ""
  | [s] => s
  | s :: s' :: rest => s ++ sep ++ joinWithSep sep (s' :: rest)

/-- A JS truthiness filter on a `string | undefined` field: the line is
pushed only when the value is defined and non-empty. -/
def truthyOptStr : Option String → Option String
  | some s => if s = "" then none else some s
  | none => none

/-- The `allowed-tools` emission value: pushed when the list is defined and
non-empty (`?.length` truthiness), serialised with `.join(', ')`. -/
def toolsVal : Option (List String) → Option String
  | some ts => if ts = [] then none else some (joinWithSep ", " ts)
  | none => none

/-- One conditionally pushed `key: value` line of `generateSkillMd`. -/
def optLine (k : String) (v : Option String) : List String :=
  match v with
  | some s => [k ++ ": " ++ s]
  | none => []

/-- The `yamlLines` array built by `generateSkillMd`: one conditional push
per field, in source order.  `license`, `author`, `keywords` and
`repository` have no push in the source. -/
def genYamlLines (fm : SkillFrontmatterPartial) : List String :=
  optLine "name" (truthyOptStr fm.name) ++
  optLine "description" (truthyOptStr fm.description) ++
  optLine "version" (truthyOptStr fm.version) ++
  optLine "disable-model-invocation" (fm.disableModelInvocation.map boolStr) ++
  optLine "user-invocable" (fm.userInvocable.map boolStr) ++
  optLine "allowed-tools" (toolsVal fm.allowedTools) ++
  optLine "argument-hint" (truthyOptStr fm.argumentHint) ++
  optLine "model" (truthyOptStr fm.model) ++
  optLine "context" (fm.context.map ctxStr) ++
  optLine "agent" (truthyOptStr fm.agent)

/-- `generateSkillMd` (src parsers/skill-parser): emit the set fields in
fixed order between `---` delimiters, followed by a blank line and the
body. -/
def generateSkillMd (fm : SkillFrontmatterPartial) (body : String) : String :=
  "---\n" ++ jsJoin '\n' (genYamlLines fm) ++ "\n---\n\n" ++ body ++ "\n"

/-- A scalar value that survives the emit-retype round trip: trimmed,
non-empty, not retyped to a boolean, number or null, and free of line
breaks.  Every string the YAML fragment delivers to the schema satisfies
this. -/
def sStab (s : String) : Prop :=
  jsTrim s = s ∧ s ≠ "" ∧ s ≠ "true" ∧ s ≠ "false" ∧
    s.data.all Char.isDigit = false ∧ '\n' ∉ s.data

/-- Stability of a raw value: any string payload is stable. -/
def vstrStable (rv : RawVal) : Prop :=
  ∀ s, rv = RawVal.vstr s → sStab s

/-- The emitted lines of a list of conditional `key: value` blocks. -/
def linesOf : List (String × Option String) → List String
  | [] => []
  | b :: bs => optLine b.1 b.2 ++ linesOf bs

/-- The raw mapping those lines parse back to. -/
def kvsOf : List (String × Option String) → List (String × RawVal)
  | [] => []
  | b :: bs =>
    (match b.2 with
      | some s => [(b.1, retypeScalar (jsTrim s))]
      | none => []) ++ kvsOf bs

/-- The conditional blocks of `generateSkillMd`, in emission order. -/
def genBlocks (fm : SkillFrontmatterPartial) : List (String × Option String) :=
  [("name", truthyOptStr fm.name),
   ("description", truthyOptStr fm.description),
   ("version", truthyOptStr fm.version),
   ("disable-model-invocation", fm.disableModelInvocation.map boolStr),
   ("user-invocable", fm.userInvocable.map boolStr),
   ("allowed-tools", toolsVal fm.allowedTools),
   ("argument-hint", truthyOptStr fm.argumentHint),
   ("model", truthyOptStr fm.model),
   ("context", fm.context.map ctxStr),
   ("agent", truthyOptStr fm.agent)]

/-- Characters of the plain-scalar fragment: lowercase ASCII letters,
digits, spaces and `, . _ / -`.  On values over this alphabet YAML has no
quoting, comments (`#`), nested mappings (`:`), flow collections, anchors
or tags to interpret. -/
def plainChar (c : Char) : Bool :=
  ('a' ≤ c && c ≤ 'z') || c.isDigit || c = ' ' || c = ',' || c = '.' ||
    c = '_' || c = '/' || c = '-'

/-- A plain unquoted single-line scalar that `js-yaml` keeps as a string
verbatim: characters from `plainChar`, starting with a lowercase letter
(or semver-shaped, covering `version` values such as `1.0.0`, which no
YAML number or timestamp form matches), and not one of the YAML 1.1/1.2
boolean, null or special float words.  On such values the embedded line
parser below and the real YAML parser agree. -/
def plainVal (v : String) : Bool :=
  v.data.all plainChar &&
  (('a' ≤ v.data.headD ' ' && v.data.headD ' ' ≤ 'z') || semverOK v) &&
  !(["true", "false", "yes", "no", "on", "off", "y", "n", "null", "nan",
     "inf"].contains v)

/-- A raw value whose string payload (if any) is a plain scalar. -/
def vplain : RawVal → Bool
  | RawVal.vstr s => plainVal s
  | _ => true

/-- The document lies in the plain-scalar fragment: every string value its
frontmatter delivers is a `plainVal`.  Theorems that must transfer to the
real `gray-matter`/`js-yaml` parser carry this hypothesis, confining them
to the fragment on which the embedding is faithful. -/
def plainFrontmatter (d : String) : Bool :=
  (((matterParse d).map Prod.fst).getD []).all (fun p => vplain p.2)

/-! ## Concrete fixtures used by counterexamples and witnesses -/

/-- A registry source record `{type: 'registry', id: 'abc'}`. -/
def exSource : SkillSource :=
  { type := SourceType.registry, id := some "abc" }

/-- A state with a `ghost` skill directory that contains no `SKILL.md`. -/
def exFsGhost : FsState :=
  ⟨[("ghost", ⟨[("notes.txt", "n")]⟩)], ManifestFile.absent⟩

/-- A state with a complete `demo` skill and its manifest entry. -/
def exFsDemo : FsState :=
  ⟨[("demo", ⟨[("SKILL.md", "old content"), ("notes.txt", "keep")]⟩)],
    ManifestFile.stored ⟨1, [⟨"demo", "1.0.0", "t0", exSource, Scope.project⟩]⟩⟩

/-- An ambiguous two-result search response: the second result's slug
matches the query `abc` up to case but not byte-for-byte. -/
def exClientAmb : RegistryClient :=
  ⟨fun q n => if q = "abc" ∧ n = 5 then [⟨"1", "zz", "zz"⟩, ⟨"2", "yy", "ABC"⟩] else [],
    fun i => "C" ++ i, fun _ => "T"⟩

/-- A client whose every search comes back empty. -/
def exClientEmpty : RegistryClient :=
  ⟨fun _ _ => [], fun i => "C" ++ i, fun _ => "T"⟩

/-- A document whose header defines `license` (C4 counterexample input). -/
def exDocLicense : String :=
  "---\nname: my-skill\ndescription: does something useful\nlicense: MIT\n---\n\nBody text here.\n"

/-- The frontmatter of `exDocLicense` as returned by the schema. -/
def exFmLicense : SkillFrontmatter :=
  { name := "my-skill", description := "does something useful",
    license := some "MIT" }

/-- `exFmLicense` with the license dropped. -/
def exFmNoLicense : SkillFrontmatter :=
  { name := "my-skill", description := "does something useful" }

/-- `exDocLicense` without the `license` line (C4 witness input). -/
def exDocPlain : String :=
  "---\nname: my-skill\ndescription: does something useful\n---\n\nBody text here.\n"

/-- A document with a valid header and an empty body (C9 failing input). -/
def exDocEmptyBody : String :=
  "---\nname: empty-skill\ndescription: a sufficiently long description\n---\n"

/-- The frontmatter of `exDocEmptyBody`. -/
def exFmEmptyBody : SkillFrontmatter :=
  { name := "empty-skill", description := "a sufficiently long description" }

/-! ## Lemmas about the string utilities -/

theorem str_eta (s : String) : String.mk s.data = s := by
  cases s; rfl

theorem str_data_append (a b : String) : (a ++ b).data = a.data ++ b.data := by
  cases a; cases b; rfl

theorem str_ext {a b : String} (h : a.data = b.data) : a = b := by
  cases a; cases b; cases h; rfl

theorem splitCh_ne_nil (c : Char) (l : List Char) : splitCh c l ≠ [] := by
  cases l with
  | nil => simp [splitCh]
  | cons x xs =>
    simp only [splitCh]
    rcases h : splitCh c xs with _ | ⟨a, t⟩
    · simp [h]
    · simp only [h]
      split <;> simp

theorem splitCh_cons_self (c : Char) (l : List Char) :
    splitCh c (c :: l) = [] :: splitCh c l := by
  have h := splitCh_ne_nil c l
  simp only [splitCh]
  rcases hs : splitCh c l with _ | ⟨a, t⟩
  · exact absurd hs h
  · simp

theorem splitCh_cons_ne (c x : Char) (l : List Char) (hx : x ≠ c) {a : List Char}
    {t : List (List Char)} (hl : splitCh c l = a :: t) :
    splitCh c (x :: l) = (x :: a) :: t := by
  simp only [splitCh, hl]
  simp [hx]

theorem splitCh_append_of_not_mem (c : Char) {l1 : List Char} (l2 : List Char)
    (h1 : c ∉ l1) {a : List Char} {t : List (List Char)}
    (hl : splitCh c l2 = a :: t) :
    splitCh c (l1 ++ l2) = (l1 ++ a) :: t := by
  induction l1 with
  | nil => simpa using hl
  | cons x xs ih =>
    have hx : x ≠ c := fun e => h1 (e ▸ List.mem_cons_self x xs)
    have hrec := ih (fun hm => h1 (List.mem_cons_of_mem _ hm))
    have := splitCh_cons_ne c x (xs ++ l2) hx hrec
    simpa using this

theorem splitCh_append_cons (c : Char) {l1 : List Char} (l2 : List Char)
    (h1 : c ∉ l1) :
    splitCh c (l1 ++ c :: l2) = l1 :: splitCh c l2 := by
  have := splitCh_append_of_not_mem c (c :: l2) h1 (splitCh_cons_self c l2)
  simpa using this

theorem splitCh_of_not_mem (c : Char) {l : List Char} (h : c ∉ l) :
    splitCh c l = [l] := by
  induction l with
  | nil => rfl
  | cons x xs ih =>
    have hx : x ≠ c := fun e => h (e ▸ List.mem_cons_self x xs)
    exact splitCh_cons_ne c x xs hx (ih (fun hm => h (List.mem_cons_of_mem _ hm)))

theorem splitCh_append_last (c : Char) (l : List Char) :
    splitCh c (l ++ [c]) = splitCh c l ++ [[]] := by
  induction l with
  | nil => rw [List.nil_append, splitCh_cons_self]; rfl
  | cons x xs ih =>
    by_cases hx : x = c
    · subst hx
      rw [List.cons_append, splitCh_cons_self, splitCh_cons_self, ih]
      rfl
    · rcases hs : splitCh c xs with _ | ⟨a, t⟩
      · exact absurd hs (splitCh_ne_nil c xs)
      · have h2 : splitCh c (xs ++ [c]) = a :: (t ++ [[]]) := by
          rw [ih, hs]; rfl
        rw [List.cons_append, splitCh_cons_ne c x _ hx h2,
          splitCh_cons_ne c x xs hx hs]
        rfl

theorem not_mem_of_mem_splitCh {c : Char} {l p : List Char}
    (hp : p ∈ splitCh c l) : c ∉ p := by
  induction l generalizing p with
  | nil =>
    simp [splitCh] at hp
    subst hp; simp
  | cons x xs ih =>
    by_cases hx : x = c
    · subst hx
      rw [splitCh_cons_self] at hp
      rcases List.mem_cons.mp hp with rfl | hp'
      · simp
      · exact ih hp'
    · rcases hs : splitCh c xs with _ | ⟨a, t⟩
      · exact absurd hs (splitCh_ne_nil c xs)
      · rw [splitCh_cons_ne c x xs hx hs] at hp
        rcases List.mem_cons.mp hp with rfl | hp'
        · intro hc
          rcases List.mem_cons.mp hc with e | hc'
          · exact hx e.symm
          · exact ih (hs ▸ List.mem_cons_self a t) hc'
        · exact ih (hs ▸ List.mem_cons_of_mem a hp')

theorem subset_of_mem_splitCh {c : Char} {l p : List Char}
    (hp : p ∈ splitCh c l) : p ⊆ l := by
  induction l generalizing p with
  | nil =>
    simp [splitCh] at hp
    subst hp; exact fun x hx => hx
  | cons x xs ih =>
    by_cases hx : x = c
    · subst hx
      rw [splitCh_cons_self] at hp
      rcases List.mem_cons.mp hp with rfl | hp'
      · exact fun y hy => absurd hy (List.not_mem_nil y)
      · exact fun y hy => List.mem_cons_of_mem x (ih hp' hy)
    · rcases hs : splitCh c xs with _ | ⟨a, t⟩
      · exact absurd hs (splitCh_ne_nil c xs)
      · rw [splitCh_cons_ne c x xs hx hs] at hp
        rcases List.mem_cons.mp hp with rfl | hp'
        · intro y hy
          rcases List.mem_cons.mp hy with rfl | hy'
          · exact List.mem_cons_self y xs
          · exact List.mem_cons_of_mem x (ih (hs ▸ List.mem_cons_self a t) hy')
        · exact fun y hy =>
            List.mem_cons_of_mem x (ih (hs ▸ List.mem_cons_of_mem a hp') hy)

theorem joinCh_splitCh (c : Char) (l : List Char) :
    joinCh c (splitCh c l) = l := by
  induction l with
  | nil => rfl
  | cons x xs ih =>
    by_cases hx : x = c
    · subst hx
      rw [splitCh_cons_self]
      rcases hs : splitCh x xs with _ | ⟨a, t⟩
      · exact absurd hs (splitCh_ne_nil x xs)
      · rw [hs] at ih
        simp [joinCh, ih]
    · rcases hs : splitCh c xs with _ | ⟨a, t⟩
      · exact absurd hs (splitCh_ne_nil c xs)
      · rw [splitCh_cons_ne c x xs hx hs]
        rw [hs] at ih
        cases t with
        | nil => simp [joinCh] at ih ⊢; exact ih
        | cons b t' => simp [joinCh] at ih ⊢; rw [ih]

theorem mem_joinCh {c : Char} {ls : List (List Char)} {x : Char}
    (hx : x ∈ joinCh c ls) : x = c ∨ ∃ l ∈ ls, x ∈ l := by
  induction ls with
  | nil => simp [joinCh] at hx
  | cons a ls ih =>
    cases ls with
    | nil =>
      right
      exact ⟨a, List.mem_cons_self a [], by simpa [joinCh] using hx⟩
    | cons b ls' =>
      simp only [joinCh] at hx
      rcases List.mem_append.mp hx with ha | hrest
      · exact Or.inr ⟨a, List.mem_cons_self a _, ha⟩
      · rcases List.mem_cons.mp hrest with rfl | hj
        · exact Or.inl rfl
        · rcases ih hj with h | ⟨l, hl, hxl⟩
          · exact Or.inl h
          · exact Or.inr ⟨l, List.mem_cons_of_mem a hl, hxl⟩

theorem mem_of_isPrefixOf {p l : List Char} (h : p.isPrefixOf l = true)
    {x : Char} (hx : x ∈ p) : x ∈ l := by
  obtain ⟨t, rfl⟩ := List.isPrefixOf_iff_prefix.mp h
  exact List.mem_append_left t hx

theorem mem_of_hasInfix {pat l : List Char} (h : hasInfix pat l = true)
    {x : Char} (hx : x ∈ pat) : x ∈ l := by
  induction l with
  | nil =>
    simp [hasInfix] at h
    subst h
    simp at hx
  | cons y ys ih =>
    simp only [hasInfix, Bool.or_eq_true] at h
    rcases h with h | h
    · exact mem_of_isPrefixOf h hx
    · exact List.mem_cons_of_mem y (ih h)

theorem dropWhile_idem (p : Char → Bool) (l : List Char) :
    (l.dropWhile p).dropWhile p = l.dropWhile p := by
  induction l with
  | nil => rfl
  | cons x xs ih =>
    rw [List.dropWhile_cons]
    by_cases hx : p x = true
    · simp [hx, ih]
    · simp [hx, List.dropWhile_cons]

theorem mem_of_mem_dropWhile {p : Char → Bool} {l : List Char} {x : Char}
    (h : x ∈ l.dropWhile p) : x ∈ l := by
  induction l with
  | nil => simp at h
  | cons y ys ih =>
    rw [List.dropWhile_cons] at h
    by_cases hy : p y = true
    · simp only [if_pos hy] at h
      exact List.mem_cons_of_mem y (ih h)
    · simp only [if_neg hy] at h
      exact h

theorem dropWhile_length_le (p : Char → Bool) (l : List Char) :
    (l.dropWhile p).length ≤ l.length := by
  induction l with
  | nil => simp
  | cons x xs ih =>
    rw [List.dropWhile_cons]
    by_cases hx : p x = true
    · simp [hx]; omega
    · simp [hx]

theorem dropWhile_append_eq (p : Char → Bool) (l1 l2 : List Char) :
    (l1 ++ l2).dropWhile p =
      if (l1.dropWhile p).isEmpty then l2.dropWhile p else l1.dropWhile p ++ l2 := by
  induction l1 with
  | nil => simp
  | cons x xs ih =>
    rw [List.cons_append, List.dropWhile_cons, List.dropWhile_cons]
    by_cases hx : p x = true
    · simp [hx, ih]
    · simp [hx]

theorem trimList_cons_ws {c : Char} (h : wsChar c = true) (l : List Char) :
    trimList (c :: l) = trimList l := by
  simp [trimList, List.dropWhile_cons, h]

theorem trimList_append_ws {c : Char} (h : wsChar c = true) (l : List Char) :
    trimList (l ++ [c]) = trimList l := by
  unfold trimList
  rcases ha : l.dropWhile wsChar with _ | ⟨y, ys⟩
  · rw [dropWhile_append_eq]
    simp [ha, List.dropWhile_cons, h]
  · rw [dropWhile_append_eq]
    simp only [ha, List.isEmpty_cons, Bool.false_eq_true, if_false]
    rw [List.reverse_append]
    simp [List.dropWhile_cons, h]

theorem trimList_ws_left {q : List Char} (hq : ∀ x ∈ q, wsChar x = true)
    (l : List Char) : trimList (q ++ l) = trimList l := by
  induction q with
  | nil => simp
  | cons c q' ih =>
    rw [List.cons_append, trimList_cons_ws (hq c (List.mem_cons_self c q'))]
    exact ih (fun x hx => hq x (List.mem_cons_of_mem c hx))

theorem trimList_ws_right {q : List Char} (hq : ∀ x ∈ q, wsChar x = true)
    (l : List Char) : trimList (l ++ q) = trimList l := by
  induction q generalizing l with
  | nil => simp
  | cons c q' ih =>
    have he : l ++ c :: q' = (l ++ [c]) ++ q' := by simp
    rw [he, ih (fun x hx => hq x (List.mem_cons_of_mem c hx)),
      trimList_append_ws (hq c (List.mem_cons_self c q'))]

theorem dropWhile_pre_exists (p : Char → Bool) (l : List Char) :
    ∃ pre, pre ++ l.dropWhile p = l ∧ ∀ x ∈ pre, p x = true := by
  induction l with
  | nil => exact ⟨[], rfl, by simp⟩
  | cons x xs ih =>
    by_cases hx : p x = true
    · obtain ⟨pre, hpre, hall⟩ := ih
      refine ⟨x :: pre, ?_, ?_⟩
      · rw [List.dropWhile_cons, if_pos hx, List.cons_append, hpre]
      · intro y hy
        rcases List.mem_cons.mp hy with rfl | hy'
        · exact hx
        · exact hall y hy'
    · refine ⟨[], ?_, by simp⟩
      rw [List.dropWhile_cons, if_neg hx, List.nil_append]

theorem trimList_subset (l : List Char) : trimList l ⊆ l := by
  intro x hx
  unfold trimList at hx
  rw [List.mem_reverse] at hx
  have hx2 := mem_of_mem_dropWhile hx
  rw [List.mem_reverse] at hx2
  exact mem_of_mem_dropWhile hx2

theorem trimList_idem (l : List Char) : trimList (trimList l) = trimList l := by
  have ha : (l.dropWhile wsChar).dropWhile wsChar = l.dropWhile wsChar :=
    dropWhile_idem _ _
  have hTl : trimList l = ((l.dropWhile wsChar).reverse.dropWhile wsChar).reverse := rfl
  obtain ⟨pre, hpre, _⟩ := dropWhile_pre_exists wsChar (l.dropWhile wsChar).reverse
  have hau : l.dropWhile wsChar =
      ((l.dropWhile wsChar).reverse.dropWhile wsChar).reverse ++ pre.reverse := by
    have := congrArg List.reverse hpre
    rw [List.reverse_append, List.reverse_reverse] at this
    exact this.symm
  rcases hu2 : ((l.dropWhile wsChar).reverse.dropWhile wsChar).reverse with _ | ⟨y, ys⟩
  · rw [hTl, hu2]; rfl
  · have hya : l.dropWhile wsChar = y :: (ys ++ pre.reverse) := by
      rw [hau, hu2]; rfl
    have hwy : wsChar y = false := by
      by_contra hcon
      have hwy' : wsChar y = true := by
        cases h : wsChar y
        · exact absurd h hcon
        · rfl
      rw [hya, List.dropWhile_cons, if_pos hwy'] at ha
      have hlen := dropWhile_length_le wsChar (ys ++ pre.reverse)
      rw [ha] at hlen
      simp at hlen
    rw [hTl, hu2]
    have h1 : (y :: ys).dropWhile wsChar = y :: ys := by
      rw [List.dropWhile_cons, if_neg (by simp [hwy])]
    have h2 : (y :: ys).reverse = (l.dropWhile wsChar).reverse.dropWhile wsChar := by
      rw [← hu2, List.reverse_reverse]
    have h3 : ((l.dropWhile wsChar).reverse.dropWhile wsChar).dropWhile wsChar =
        (l.dropWhile wsChar).reverse.dropWhile wsChar := dropWhile_idem _ _
    show ((((y :: ys).dropWhile wsChar).reverse).dropWhile wsChar).reverse = y :: ys
    rw [h1, h2, h3, ← h2, List.reverse_reverse]

theorem jsTrim_idem (s : String) : jsTrim (jsTrim s) = jsTrim s := by
  simp [jsTrim, trimList_idem]

/-! ## Lemmas about the file-system and manifest model -/

theorem lookup_append_of_none {α : Type} {k : String} {l1 : List (String × α)}
    (l2 : List (String × α)) (h : l1.lookup k = none) :
    (l1 ++ l2).lookup k = l2.lookup k := by
  induction l1 with
  | nil => simp
  | cons p t ih =>
    rcases p with ⟨k', v'⟩
    rw [List.cons_append]
    simp only [List.lookup_cons] at h ⊢
    cases hkk : (k == k') with
    | true => rw [hkk] at h; exact absurd h (by simp)
    | false => rw [hkk] at h; exact ih h

theorem setAssoc_lookup {α : Type} (k : String) (v : α)
    (l : List (String × α)) : (setAssoc k v l).lookup k = some v := by
  induction l with
  | nil => simp [setAssoc, List.lookup]
  | cons p t ih =>
    rcases p with ⟨k', v'⟩
    unfold setAssoc
    by_cases hk : k' = k
    · rw [if_pos hk]
      simp [List.lookup_cons]
    · rw [if_neg hk]
      have hb : (k == k') = false := by
        simp only [beq_eq_false_iff_ne]
        exact fun e => hk e.symm
      simp only [List.lookup_cons, hb]
      exact ih

theorem writeSkillFile_lookup_self (name file content : String)
    (fs : FsState) :
    ((writeSkillFile name file content fs).dirs.lookup name) =
      (fs.dirs.lookup name).map
        (fun d => SkillDir.mk (setAssoc file content d.files)) := by
  show ((fs.dirs.map _).lookup name) = _
  induction fs.dirs with
  | nil => simp
  | cons p t ih =>
    rcases p with ⟨k, d⟩
    by_cases hk : k = name
    · subst hk
      simp only [List.map_cons, if_pos rfl]
      simp [List.lookup_cons]
    · simp only [List.map_cons, if_neg hk]
      have hb : (name == k) = false := by
        simp only [beq_eq_false_iff_ne]
        exact fun e => hk e.symm
      simp only [List.lookup_cons, hb]
      exact ih

theorem lookup_filter_ne {α : Type} (name : String) (l : List (String × α)) :
    (l.filter (fun p => p.1 ≠ name)).lookup name = none := by
  induction l with
  | nil => simp
  | cons p t ih =>
    rcases p with ⟨k, v⟩
    by_cases hk : k = name
    · subst hk
      have hd : (decide ((k, v).1 ≠ k)) = false := by simp
      rw [List.filter_cons, hd]
      simp only [Bool.false_eq_true, if_false]
      exact ih
    · have hd : (decide ((k, v).1 ≠ name)) = true := by simp [hk]
      rw [List.filter_cons, hd]
      have hb : (name == k) = false := by
        simp only [beq_eq_false_iff_ne]
        exact fun e => hk e.symm
      simp only [if_true, List.lookup_cons, hb]
      exact ih

theorem ensureDir_manifest (name : String) (fs : FsState) :
    (ensureDir name fs).manifest = fs.manifest := by
  unfold ensureDir
  split <;> rfl

theorem writeSkillFile_manifest (name file content : String) (fs : FsState) :
    (writeSkillFile name file content fs).manifest = fs.manifest := rfl

theorem updateManifest_dirs (scope : Scope) (name : String) (src : SkillSource)
    (now : String) (fs : FsState) :
    (updateManifest scope name src now fs).dirs = fs.dirs := rfl

theorem ensureDir_lookup_isSome (name : String) (fs : FsState) :
    ((ensureDir name fs).dirs.lookup name).isSome = true := by
  unfold ensureDir
  cases h : fs.dirs.lookup name with
  | some d => simp [h]
  | none =>
    simp only [h, Option.isSome_none, Bool.false_eq_true, if_false]
    rw [lookup_append_of_none _ h]
    simp [List.lookup]

theorem readSkillFile_write_self (name file content : String) (fs : FsState)
    (h : (fs.dirs.lookup name).isSome = true) :
    readSkillFile name file (writeSkillFile name file content fs) = some content := by
  unfold readSkillFile
  rw [writeSkillFile_lookup_self]
  cases hl : fs.dirs.lookup name with
  | none => rw [hl] at h; simp at h
  | some d => simp [setAssoc_lookup]

theorem upsertEntry_cons (x : SkillManifest) (xs : List SkillManifest)
    (name : String) (e : SkillManifest) :
    upsertEntry (x :: xs) name e =
      if x.name == name then e :: xs else x :: upsertEntry xs name e := by
  unfold upsertEntry
  rw [List.findIdx?_cons]
  by_cases hx : (x.name == name) = true
  · simp [hx]
  · simp only [hx, Bool.false_eq_true, if_false, if_neg]
    rw [List.findIdx?_succ]
    cases h : xs.findIdx? (fun s => s.name == name) with
    | none => simp [h]
    | some i => simp [h, List.set]

theorem upsertEntry_count_self (skills : List SkillManifest) (name : String)
    (e : SkillManifest) (he : e.name = name)
    (h : (skills.filter (fun s => s.name == name)).length ≤ 1) :
    ((upsertEntry skills name e).filter (fun s => s.name == name)).length = 1 := by
  induction skills with
  | nil => simp [upsertEntry, List.filter, he]
  | cons x xs ih =>
    rw [upsertEntry_cons]
    by_cases hx : (x.name == name) = true
    · rw [if_pos hx]
      simp only [List.filter_cons, hx, if_true, List.length_cons] at h
      have hxs : (xs.filter (fun s => s.name == name)).length = 0 := by omega
      simp [List.filter_cons, he, hxs]
    · rw [if_neg hx]
      simp only [List.filter_cons, hx, Bool.false_eq_true, if_false] at h ⊢
      exact ih h

theorem upsertEntry_count_other (skills : List SkillManifest) (name : String)
    (e : SkillManifest) (other : String) (he : e.name = name)
    (hne : other ≠ name) :
    ((upsertEntry skills name e).filter (fun s => s.name == other)).length =
      (skills.filter (fun s => s.name == other)).length := by
  have heo : (e.name == other) = false := by
    simp only [beq_eq_false_iff_ne, he]
    exact fun ee => hne ee.symm
  induction skills with
  | nil => simp [upsertEntry, List.filter, heo]
  | cons x xs ih =>
    rw [upsertEntry_cons]
    by_cases hx : (x.name == name) = true
    · rw [if_pos hx]
      have hxo : (x.name == other) = false := by
        simp only [beq_eq_false_iff_ne]
        have : x.name = name := by simpa using hx
        rw [this]
        exact fun ee => hne ee.symm
      simp [List.filter_cons, hxo, heo]
    · rw [if_neg hx]
      simp only [List.filter_cons]
      cases hxo : (x.name == other) with
      | true => simp [ih]
      | false => simp [ih]

theorem upsertEntry_names_sub (skills : List SkillManifest) (name : String)
    (e : SkillManifest) :
    ∀ y ∈ (upsertEntry skills name e).map SkillManifest.name,
      y ∈ skills.map SkillManifest.name ∨ y = e.name := by
  induction skills with
  | nil =>
    intro y hy
    simp [upsertEntry] at hy
    exact Or.inr hy
  | cons x xs ih =>
    rw [upsertEntry_cons]
    by_cases hx : (x.name == name) = true
    · rw [if_pos hx]
      intro y hy
      rcases List.mem_cons.mp hy with rfl | hy'
      · exact Or.inr rfl
      · exact Or.inl (List.mem_cons_of_mem _ hy')
    · rw [if_neg hx]
      intro y hy
      simp only [List.map_cons, List.mem_cons] at hy ⊢
      rcases hy with rfl | hy'
      · exact Or.inl (Or.inl rfl)
      · rcases ih y hy' with h | h
        · exact Or.inl (Or.inr h)
        · exact Or.inr h

theorem upsertEntry_nodup (skills : List SkillManifest) (name : String)
    (e : SkillManifest) (he : e.name = name)
    (h : (skills.map SkillManifest.name).Nodup) :
    ((upsertEntry skills name e).map SkillManifest.name).Nodup := by
  induction skills with
  | nil => simp [upsertEntry]
  | cons x xs ih =>
    rw [upsertEntry_cons]
    simp only [List.map_cons, List.nodup_cons] at h
    by_cases hx : (x.name == name) = true
    · rw [if_pos hx]
      have hxe : e.name = x.name := by
        rw [he]
        exact ((by simpa using hx : x.name = name)).symm
      simp only [List.map_cons, List.nodup_cons]
      exact ⟨hxe ▸ h.1, h.2⟩
    · rw [if_neg hx]
      simp only [List.map_cons, List.nodup_cons]
      refine ⟨?_, ih h.2⟩
      intro hmem
      rcases upsertEntry_names_sub xs name e x.name hmem with hm | hm
      · exact h.1 hm
      · rw [he] at hm
        exact (by simpa using hx : x.name ≠ name) hm

theorem countName_eq_getManifest (name : String) (fs : FsState) :
    countName name fs = ((getManifest fs).skills.filter (fun s => s.name == name)).length := by
  cases h : fs.manifest <;> simp [countName, getManifest, h]

theorem installSkill_noforce_eq (scope : Scope) (name content : String)
    (src : SkillSource) (now : String) (fs : FsState) :
    installSkill scope name content false src now fs =
      if dirExists name fs then Except.error SkillErr.conflict
      else Except.ok (updateManifest scope name src now
        (writeSkillFile name "SKILL.md" content (ensureDir name fs))) := by
  unfold installSkill
  by_cases h : dirExists name fs <;> simp [h]

theorem installSkill_force_eq (scope : Scope) (name content : String)
    (src : SkillSource) (now : String) (fs : FsState) :
    installSkill scope name content true src now fs =
      Except.ok (updateManifest scope name src now
        (writeSkillFile name "SKILL.md" content (ensureDir name fs))) := by
  unfold installSkill
  simp

theorem installSkill_ok_eq {scope : Scope} {name content : String}
    {force : Bool} {src : SkillSource} {now : String} {fs fs' : FsState}
    (h : installSkill scope name content force src now fs = Except.ok fs') :
    fs' = updateManifest scope name src now
      (writeSkillFile name "SKILL.md" content (ensureDir name fs)) := by
  unfold installSkill at h
  split at h
  · exact absurd h (by simp)
  · exact (Except.ok.inj h).symm

theorem uninstallSkill_ok_eq {name : String} {fs fs' : FsState}
    (h : uninstallSkill name fs = Except.ok fs') :
    fs' = removeFromManifest name
      { fs with dirs := fs.dirs.filter (fun p => p.1 ≠ name) } := by
  unfold uninstallSkill at h
  split at h
  · exact absurd h (by simp)
  · exact (Except.ok.inj h).symm

theorem removeFromManifest_dirs (name : String) (x : FsState) :
    (removeFromManifest name x).dirs = x.dirs := by
  unfold removeFromManifest
  cases x.manifest <;> rfl

theorem getManifest_congr {fs1 fs2 : FsState}
    (h : fs1.manifest = fs2.manifest) : getManifest fs1 = getManifest fs2 := by
  unfold getManifest
  rw [h]

theorem installSkill_ok_manifest {scope : Scope} {name content : String}
    {force : Bool} {src : SkillSource} {now : String} {fs fs' : FsState}
    (h : installSkill scope name content force src now fs = Except.ok fs') :
    fs'.manifest = ManifestFile.stored
      ⟨(getManifest fs).version,
        upsertEntry (getManifest fs).skills name ⟨name, "1.0.0", now, src, scope⟩⟩ := by
  rw [installSkill_ok_eq h]
  unfold updateManifest
  have hm : (writeSkillFile name "SKILL.md" content (ensureDir name fs)).manifest
      = fs.manifest := by
    rw [writeSkillFile_manifest, ensureDir_manifest]
  rw [getManifest_congr hm]

theorem nodup_filter_beq_le_one (name : String) (l : List SkillManifest)
    (h : (l.map SkillManifest.name).Nodup) :
    (l.filter (fun s => s.name == name)).length ≤ 1 := by
  induction l with
  | nil => simp
  | cons x xs ih =>
    simp only [List.map_cons, List.nodup_cons] at h
    rw [List.filter_cons]
    cases hx : (x.name == name) with
    | false => simpa using ih h.2
    | true =>
      have hxn : x.name = name := by simpa using hx
      have hnil : xs.filter (fun s => s.name == name) = [] := by
        rw [List.filter_eq_nil_iff]
        intro s hs hbeq
        have : s.name = name := by simpa using hbeq
        exact h.1 (hxn ▸ this ▸ List.mem_map_of_mem SkillManifest.name hs)
      simp [hnil]

theorem manifestInv_le_one (name : String) (fs : FsState)
    (h : manifestInv fs) : countName name fs ≤ 1 := by
  unfold manifestInv at h
  cases hm : fs.manifest with
  | stored m =>
    rw [hm] at h
    simp only [countName, hm]
    exact nodup_filter_beq_le_one name m.skills h
  | absent => simp [countName, hm]
  | corrupt => simp [countName, hm]

theorem manifestInv_updateManifest (scope : Scope) (name : String)
    (src : SkillSource) (now : String) (fs : FsState) (h : manifestInv fs) :
    manifestInv (updateManifest scope name src now fs) := by
  unfold updateManifest manifestInv
  refine upsertEntry_nodup _ name _ rfl ?_
  unfold manifestInv at h
  cases hm : fs.manifest with
  | stored m => rw [hm] at h; simpa [getManifest, hm] using h
  | absent => simp [getManifest, hm]
  | corrupt => simp [getManifest, hm]

theorem manifestInv_removeFromManifest (name : String) (x : FsState)
    (h : manifestInv x) : manifestInv (removeFromManifest name x) := by
  unfold removeFromManifest manifestInv
  unfold manifestInv at h
  cases hm : x.manifest with
  | stored m =>
    rw [hm] at h
    simp only []
    have hsub : ((m.skills.filter (fun s => s.name ≠ name)).map SkillManifest.name).Sublist
        (m.skills.map SkillManifest.name) :=
      (List.filter_sublist _).map _
    exact h.sublist hsub
  | absent => simp [hm]
  | corrupt => simp [hm]

theorem manifestInv_mk_dirs (dirs : List (String × SkillDir)) (fs : FsState)
    (h : manifestInv fs) : manifestInv { fs with dirs := dirs } := h

theorem manifestInv_applyOp (scope : Scope) (fs : FsState) (op : Op)
    (h : manifestInv fs) : manifestInv (applyOp scope fs op) := by
  cases op with
  | install name content force src now =>
    show manifestInv (match installSkill scope name content force src now fs with
      | Except.ok fs' => fs'
      | Except.error _ => fs)
    cases hr : installSkill scope name content force src now fs with
    | error e => exact h
    | ok fs' =>
      show manifestInv fs'
      rw [installSkill_ok_eq hr]
      have h1 : manifestInv (writeSkillFile name "SKILL.md" content (ensureDir name fs)) := by
        unfold manifestInv
        rw [writeSkillFile_manifest, ensureDir_manifest]
        exact h
      exact manifestInv_updateManifest scope name src now _ h1
  | uninstall name =>
    show manifestInv (match uninstallSkill name fs with
      | Except.ok fs' => fs'
      | Except.error _ => fs)
    cases hr : uninstallSkill name fs with
    | error e => exact h
    | ok fs' =>
      show manifestInv fs'
      rw [uninstallSkill_ok_eq hr]
      exact manifestInv_removeFromManifest name _ (manifestInv_mk_dirs _ fs h)

/-! ## Lemmas about the specifier resolver -/

theorem jsIncludes_eq_false_of_not_mem {s pat : String} {c : Char}
    (hc : c ∈ pat.data) (h : c ∉ s.data) : jsIncludes s pat = false := by
  cases hi : jsIncludes s pat with
  | false => rfl
  | true => exact absurd (mem_of_hasInfix hi hc) h

theorem jsStartsWith_eq_false_of_not_mem {s pat : String} {c : Char}
    (hc : c ∈ pat.data) (h : c ∉ s.data) : jsStartsWith pat s = false := by
  cases hi : jsStartsWith pat s with
  | false => rfl
  | true => exact absurd (mem_of_isPrefixOf hi hc) h

theorem jsOrStr_self (r : String) : jsOrStr (some r) (some r) = r := by
  unfold jsOrStr truthyStr
  by_cases h : r = "" <;> simp [h]

theorem jsSplit_slash_pair (owner repo : String)
    (ho : '/' ∉ owner.data) (hr : '/' ∉ repo.data) :
    jsSplit '/' (owner ++ "/" ++ repo) = [owner, repo] := by
  unfold jsSplit
  have hdata : (owner ++ "/" ++ repo).data = owner.data ++ '/' :: repo.data := by
    rw [str_data_append, str_data_append, List.append_assoc]
    rfl
  rw [hdata, splitCh_append_cons '/' repo.data ho, splitCh_of_not_mem '/' hr]
  simp [str_eta]

theorem parseGithubShorthand_pair (owner repo : String)
    (ho : '/' ∉ owner.data) (_ha : '@' ∉ owner.data)
    (hr : '/' ∉ repo.data) (hra : '@' ∉ repo.data) :
    parseGithubShorthand (owner ++ "/" ++ repo) =
      ParsedSource.github owner (some repo) none none := by
  unfold parseGithubShorthand
  rw [jsSplit_slash_pair owner repo ho hr]
  have hio : jsIncludes owner "/" = false :=
    jsIncludes_eq_false_of_not_mem (by decide) ho
  have hir : jsIncludes repo "@" = false :=
    jsIncludes_eq_false_of_not_mem (by decide) hra
  simp only [hio, Bool.false_eq_true, if_false, List.head?_cons,
    jsOrStr_self, hir, List.drop_succ_cons, List.drop_nil]
  rfl

theorem uuidPattern_groups {s : String} (h : uuidPattern s = true) :
    ∃ a b c d e : String,
      jsSplit '-' s = [a, b, c, d, e] ∧
      a.data.all hexDigit = true ∧ b.data.all hexDigit = true ∧
      c.data.all hexDigit = true ∧ d.data.all hexDigit = true ∧
      e.data.all hexDigit = true ∧ a.data.length = 8 := by
  unfold uuidPattern at h
  rcases hsp : jsSplit '-' s with _ | ⟨a, t1⟩
  · rw [hsp] at h; simp at h
  · rcases t1 with _ | ⟨b, t2⟩
    · rw [hsp] at h; simp at h
    · rcases t2 with _ | ⟨c, t3⟩
      · rw [hsp] at h; simp at h
      · rcases t3 with _ | ⟨d, t4⟩
        · rw [hsp] at h; simp at h
        · rcases t4 with _ | ⟨e, t5⟩
          · rw [hsp] at h; simp at h
          · rcases t5 with _ | ⟨f, t6⟩
            · rw [hsp] at h
              simp only [Bool.and_eq_true, decide_eq_true_eq] at h
              obtain ⟨⟨⟨⟨⟨⟨⟨⟨⟨h1, _⟩, _⟩, _⟩, _⟩, hA⟩, hB⟩, hC⟩, hD⟩, hE⟩ := h
              exact ⟨a, b, c, d, e, rfl, hA, hB, hC, hD, hE, h1⟩
            · rw [hsp] at h; simp at h

theorem map_data_mk (x : List (List Char)) :
    List.map String.data (List.map String.mk x) = x := by
  induction x with
  | nil => rfl
  | cons a t ih => simp only [List.map_cons, ih]

theorem jsSplit_eq_data {c : Char} {s : String} {L : List String}
    (h : jsSplit c s = L) : splitCh c s.data = L.map String.data := by
  have h2 := congrArg (List.map String.data) h
  unfold jsSplit at h2
  rw [map_data_mk] at h2
  exact h2

theorem uuidPattern_chars {s : String} (h : uuidPattern s = true) :
    ∀ x ∈ s.data, hexDigit x = true ∨ x = '-' := by
  obtain ⟨a, b, c, d, e, hsp, hA, hB, hC, hD, hE, _⟩ := uuidPattern_groups h
  have hdata := jsSplit_eq_data hsp
  intro x hx
  have hj : x ∈ joinCh '-' (splitCh '-' s.data) := by
    rw [joinCh_splitCh]; exact hx
  rw [hdata] at hj
  rcases mem_joinCh hj with rfl | ⟨l, hl, hxl⟩
  · exact Or.inr rfl
  · left
    simp only [List.map_cons, List.map_nil, List.mem_cons, List.not_mem_nil,
      or_false] at hl
    rcases hl with rfl | rfl | rfl | rfl | rfl
    · exact List.all_eq_true.mp hA x hxl
    · exact List.all_eq_true.mp hB x hxl
    · exact List.all_eq_true.mp hC x hxl
    · exact List.all_eq_true.mp hD x hxl
    · exact List.all_eq_true.mp hE x hxl

theorem uuidPattern_no_char {s : String} (h : uuidPattern s = true)
    {c : Char} (hc1 : hexDigit c = false) (hc2 : c ≠ '-') : c ∉ s.data := by
  intro hm
  rcases uuidPattern_chars h c hm with hh | hh
  · rw [hc1] at hh; exact Bool.false_ne_true hh
  · exact hc2 hh

/-! ## Lemmas about the registry fetcher -/

theorem fetchFromRegistry_empty (client : RegistryClient) (registryId : String)
    (h : uuidPattern registryId = false)
    (hres : client.searchWorkflows registryId 5 = []) :
    fetchFromRegistry client registryId = Except.error FetchErr.notFound := by
  unfold fetchFromRegistry
  rw [if_neg (by simp [h])]
  simp [hres]

theorem fetchFromRegistry_found (client : RegistryClient) (registryId : String)
    (w0 w : Workflow) (t : List Workflow) (h : uuidPattern registryId = false)
    (hres : client.searchWorkflows registryId 5 = w0 :: t)
    (hfind : (w0 :: t).find? (isExactMatch registryId) = some w) :
    fetchFromRegistry client registryId =
      Except.ok ⟨extractName (client.downloadWorkflow w.id) w.title,
        client.downloadWorkflow w.id, w.id, false, [(registryId, 5)]⟩ := by
  unfold fetchFromRegistry
  rw [if_neg (by simp [h])]
  simp only [hres, List.length_cons]
  rw [if_neg (by simp)]
  simp [hfind]

theorem fetchFromRegistry_first (client : RegistryClient) (registryId : String)
    (w0 : Workflow) (t : List Workflow) (h : uuidPattern registryId = false)
    (hres : client.searchWorkflows registryId 5 = w0 :: t)
    (hfind : (w0 :: t).find? (isExactMatch registryId) = none) :
    fetchFromRegistry client registryId =
      Except.ok ⟨extractName (client.downloadWorkflow w0.id) w0.title,
        client.downloadWorkflow w0.id, w0.id,
        decide ((w0 :: t).length > 1), [(registryId, 5)]⟩ := by
  unfold fetchFromRegistry
  rw [if_neg (by simp [h])]
  simp only [hres, List.length_cons]
  rw [if_neg (by simp)]
  simp [hfind]

/-! ## Lemmas about the document parser and generator -/

theorem splitCh_joinCh_append (c : Char) (p : List Char)
    (ps : List (List Char)) (z : List Char) (hp : c ∉ p)
    (hps : ∀ q ∈ ps, c ∉ q) :
    splitCh c (joinCh c (p :: ps) ++ c :: z) = (p :: ps) ++ splitCh c z := by
  induction ps generalizing p with
  | nil =>
    show splitCh c (p ++ c :: z) = p :: splitCh c z
    exact splitCh_append_cons c z hp
  | cons q ps' ih =>
    show splitCh c ((p ++ c :: joinCh c (q :: ps')) ++ c :: z) = _
    rw [List.append_assoc, List.cons_append]
    rw [splitCh_append_cons c _ hp]
    rw [ih q (hps q (List.mem_cons_self q ps'))
      (fun r hr => hps r (List.mem_cons_of_mem q hr))]
    rfl

theorem joinCh_append_single (c : Char) (ps : List (List Char))
    (q : List Char) (h : ps ≠ []) :
    joinCh c (ps ++ [q]) = joinCh c ps ++ c :: q := by
  induction ps with
  | nil => exact absurd rfl h
  | cons a ps' ih =>
    cases ps' with
    | nil => rfl
    | cons b ps'' =>
      show joinCh c (a :: ((b :: ps'') ++ [q])) = _
      have hb : (b :: ps'') ++ [q] = b :: (ps'' ++ [q]) := rfl
      rw [hb]
      show a ++ c :: joinCh c (b :: (ps'' ++ [q])) = _
      rw [← hb, ih (by simp)]
      simp [joinCh]

theorem takeWhile_append_not (p : Char → Bool) (l1 : List Char) (x : Char)
    (l2 : List Char) (h1 : ∀ y ∈ l1, p y = true) (hx : p x = false) :
    (l1 ++ x :: l2).takeWhile p = l1 := by
  induction l1 with
  | nil => simp [List.takeWhile_cons, hx]
  | cons y ys ih =>
    rw [List.cons_append, List.takeWhile_cons,
      if_pos (h1 y (List.mem_cons_self y ys))]
    rw [ih (fun z hz => h1 z (List.mem_cons_of_mem y hz))]

theorem drop_append_cons {α : Type} (l1 : List α) (x : α) (l2 : List α) :
    (l1 ++ x :: l2).drop (l1.length + 1) = l2 := by
  induction l1 with
  | nil => simp
  | cons y ys ih =>
    simp only [List.cons_append, List.length_cons, List.drop_succ_cons]
    exact ih

theorem findIdx_after (p : String → Bool) (l1 : List String) (y : String)
    (l2 : List String) (h1 : ∀ x ∈ l1, p x = false) (hy : p y = true) :
    List.findIdx? p (l1 ++ y :: l2) = some l1.length := by
  induction l1 with
  | nil =>
    rw [List.nil_append, List.findIdx?_cons, if_pos hy]
    rfl
  | cons x xs ih =>
    rw [List.cons_append, List.findIdx?_cons,
      if_neg (by simp [h1 x (List.mem_cons_self x xs)]), List.findIdx?_succ]
    rw [ih (fun z hz => h1 z (List.mem_cons_of_mem x hz))]
    rfl

theorem map_mk_data (L : List String) :
    (L.map String.data).map String.mk = L := by
  induction L with
  | nil => rfl
  | cons s t ih => simp [str_eta, ih]

theorem map_mk_comp_data (L : List String) :
    L.map (String.mk ∘ String.data) = L := by
  induction L with
  | nil => rfl
  | cons s t ih => simp [Function.comp, str_eta, ih]

theorem str_mk_nil : String.mk [] = "" := rfl

theorem lineKV_key_value (k s : String) (hk : ':' ∉ k.data) :
    lineKV (k ++ ": " ++ s) = some (k, retypeScalar (jsTrim s)) := by
  have hdata : (k ++ ": " ++ s).data = k.data ++ ':' :: ' ' :: s.data := by
    rw [str_data_append, str_data_append, List.append_assoc]
    rfl
  have htake : (k ++ ": " ++ s).data.takeWhile (fun c => c != ':') = k.data := by
    rw [hdata]
    exact takeWhile_append_not _ k.data ':' (' ' :: s.data)
      (fun y hy => by
        have hne : y ≠ ':' := fun e => hk (e ▸ hy)
        simp [hne]) (by decide)
  unfold lineKV
  rw [htake]
  have hlen : k.data.length ≠ (k ++ ": " ++ s).data.length := by
    rw [hdata, List.length_append]
    simp
  rw [if_neg hlen]
  have hdrop : (k ++ ": " ++ s).data.drop (k.data.length + 1) = ' ' :: s.data := by
    rw [hdata]
    exact drop_append_cons k.data ':' (' ' :: s.data)
  rw [hdrop]
  have htrim : jsTrim ⟨' ' :: s.data⟩ = jsTrim s := by
    show String.mk (trimList (' ' :: s.data)) = String.mk (trimList s.data)
    rw [trimList_cons_ws (by decide)]
  rw [htrim]

theorem retypeScalar_vstr_inv {v s : String}
    (h : retypeScalar v = RawVal.vstr s) :
    s = v ∧ v ≠ "" ∧ v ≠ "true" ∧ v ≠ "false" ∧
      v.data.all Char.isDigit = false := by
  unfold retypeScalar at h
  by_cases h1 : v = ""
  · rw [if_pos h1] at h; exact absurd h (by simp)
  · rw [if_neg h1] at h
    by_cases h2 : v = "true"
    · rw [if_pos h2] at h; exact absurd h (by simp)
    · rw [if_neg h2] at h
      by_cases h3 : v = "false"
      · rw [if_pos h3] at h; exact absurd h (by simp)
      · rw [if_neg h3] at h
        cases h4 : v.data.all Char.isDigit with
        | true => rw [h4] at h; exact absurd h (by simp)
        | false =>
          rw [h4] at h
          simp only [if_false, Bool.false_eq_true] at h
          exact ⟨(RawVal.vstr.inj h).symm, h1, h2, h3, rfl⟩

theorem retypeScalar_of_sStab {s : String} (h : sStab s) :
    retypeScalar (jsTrim s) = RawVal.vstr s := by
  rw [h.1]
  unfold retypeScalar
  rw [if_neg h.2.1, if_neg h.2.2.1, if_neg h.2.2.2.1]
  simp [h.2.2.2.2.1]

theorem parseYaml_append (acc : List (String × RawVal)) (ls1 ls2 : List String) :
    parseYaml acc (ls1 ++ ls2) =
      match parseYaml acc ls1 with
      | some acc1 => parseYaml acc1 ls2
      | none => none := by
  induction ls1 generalizing acc with
  | nil => rfl
  | cons l ls ih =>
    rw [List.cons_append]
    cases hl : lineKV l with
    | none =>
      have hnone : ∀ (a : List (String × RawVal)) (rest : List String),
          parseYaml a (l :: rest) = none := by
        intro a rest
        show (match lineKV l with
          | none => none
          | some (k, v) =>
            if (a.map Prod.fst).contains k then none
            else parseYaml (a ++ [(k, v)]) rest) = none
        rw [hl]
      rw [hnone, hnone]
    | some kv =>
      rcases kv with ⟨k, v⟩
      have hsome : ∀ (a : List (String × RawVal)) (rest : List String),
          parseYaml a (l :: rest) =
            if (a.map Prod.fst).contains k then none
            else parseYaml (a ++ [(k, v)]) rest := by
        intro a rest
        show (match lineKV l with
          | none => none
          | some (k, v) =>
            if (a.map Prod.fst).contains k then none
            else parseYaml (a ++ [(k, v)]) rest) = _
        rw [hl]
      rw [hsome, hsome]
      cases hc : (acc.map Prod.fst).contains k with
      | true => simp
      | false =>
        simp only [Bool.false_eq_true, if_false]
        exact ih _

theorem contains_eq_false_iff {l : List String} {k : String} :
    l.contains k = false ↔ k ∉ l := by
  induction l with
  | nil => simp
  | cons x xs ih =>
    constructor
    · intro h hm
      rcases List.mem_cons.mp hm with rfl | hm'
      · simp [List.contains_cons] at h
      · rw [List.contains_cons] at h
        rcases Bool.or_eq_false_iff.mp h with ⟨_, h2⟩
        exact ih.mp h2 hm'
    · intro h
      rw [List.contains_cons]
      refine Bool.or_eq_false_iff.mpr ⟨?_, ?_⟩
      · simp only [beq_eq_false_iff_ne]
        exact fun e => h (e ▸ List.mem_cons_self x xs)
      · exact ih.mpr (fun hm => h (List.mem_cons_of_mem x hm))

theorem parseYaml_linesOf (bs : List (String × Option String))
    (acc : List (String × RawVal))
    (hkeys : ∀ b ∈ bs, ':' ∉ b.1.data)
    (hnd : (bs.map Prod.fst).Nodup)
    (hdisj : ∀ b ∈ bs, (acc.map Prod.fst).contains b.1 = false) :
    parseYaml acc (linesOf bs) = some (acc ++ kvsOf bs) := by
  induction bs generalizing acc with
  | nil => simp [linesOf, kvsOf, parseYaml]
  | cons b bs ih =>
    simp only [List.map_cons, List.nodup_cons] at hnd
    cases hv : b.2 with
    | none =>
      show parseYaml acc (optLine b.1 b.2 ++ linesOf bs) = _
      rw [hv]
      show parseYaml acc ([] ++ linesOf bs) = _
      rw [List.nil_append,
        ih acc (fun b' hb' => hkeys b' (List.mem_cons_of_mem b hb')) hnd.2
          (fun b' hb' => hdisj b' (List.mem_cons_of_mem b hb'))]
      show _ = some (acc ++ ((match b.2 with
        | some s => [(b.1, retypeScalar (jsTrim s))]
        | none => []) ++ kvsOf bs))
      rw [hv]
      rfl
    | some s =>
      show parseYaml acc (optLine b.1 b.2 ++ linesOf bs) = _
      rw [hv]
      have h1 : parseYaml acc ((b.1 ++ ": " ++ s) :: linesOf bs) =
          if (acc.map Prod.fst).contains b.1 then none
          else parseYaml (acc ++ [(b.1, retypeScalar (jsTrim s))]) (linesOf bs) := by
        show (match lineKV (b.1 ++ ": " ++ s) with
          | none => none
          | some (k, v) =>
            if (acc.map Prod.fst).contains k then none
            else parseYaml (acc ++ [(k, v)]) (linesOf bs)) = _
        rw [lineKV_key_value b.1 s (hkeys b (List.mem_cons_self b bs))]
      show parseYaml acc ((b.1 ++ ": " ++ s) :: linesOf bs) = _
      rw [h1, hdisj b (List.mem_cons_self b bs)]
      simp only [Bool.false_eq_true, if_false]
      have hdisj' : ∀ b' ∈ bs,
          (((acc ++ [(b.1, retypeScalar (jsTrim s))]).map Prod.fst)).contains b'.1 = false := by
        intro b' hb'
        rw [contains_eq_false_iff]
        rw [List.map_append, List.mem_append]
        rintro (hin | hin)
        · exact contains_eq_false_iff.mp (hdisj b' (List.mem_cons_of_mem b hb')) hin
        · simp only [List.map_cons, List.map_nil, List.mem_cons,
            List.not_mem_nil, or_false] at hin
          exact hnd.1 (hin ▸ List.mem_map_of_mem Prod.fst hb')
      rw [ih _ (fun b' hb' => hkeys b' (List.mem_cons_of_mem b hb')) hnd.2 hdisj']
      show _ = some (acc ++ ((match b.2 with
        | some s => [(b.1, retypeScalar (jsTrim s))]
        | none => []) ++ kvsOf bs))
      rw [hv, List.append_assoc]

theorem genYamlLines_eq_linesOf (fmp : SkillFrontmatterPartial) :
    genYamlLines fmp = linesOf (genBlocks fmp) := by
  simp [genYamlLines, linesOf, genBlocks, List.append_assoc]

theorem optLine_mem {k : String} {v : Option String} {l : String}
    (h : l ∈ optLine k v) : ∃ s, v = some s ∧ l = k ++ ": " ++ s := by
  cases v with
  | none => simp [optLine] at h
  | some s =>
    simp [optLine] at h
    exact ⟨s, rfl, h⟩

theorem mem_linesOf {bs : List (String × Option String)} {l : String}
    (h : l ∈ linesOf bs) :
    ∃ b ∈ bs, ∃ s, b.2 = some s ∧ l = b.1 ++ ": " ++ s := by
  induction bs with
  | nil => simp [linesOf] at h
  | cons b bs ih =>
    rcases List.mem_append.mp h with hh | ht
    · obtain ⟨s, hv, hl⟩ := optLine_mem hh
      exact ⟨b, List.mem_cons_self b bs, s, hv, hl⟩
    · obtain ⟨b', hb', s, hv, hl⟩ := ih ht
      exact ⟨b', List.mem_cons_of_mem b hb', s, hv, hl⟩

theorem line_has_colon (k s : String) : ':' ∈ (k ++ ": " ++ s).data := by
  show ':' ∈ (k.data ++ [':', ' ']) ++ s.data
  exact List.mem_append_left _ (List.mem_append_right _ (by decide))

theorem genLine_ne_dashes (k s : String) : ((k ++ ": " ++ s) == "---") = false := by
  rw [beq_eq_false_iff_ne]
  intro e
  have h := line_has_colon k s
  rw [e] at h
  exact absurd h (by decide)

theorem genLine_no_newline {k s : String} (hk : '\n' ∉ k.data)
    (hs : '\n' ∉ s.data) : '\n' ∉ (k ++ ": " ++ s).data := by
  show '\n' ∉ (k.data ++ [':', ' ']) ++ s.data
  intro hm
  rcases List.mem_append.mp hm with hm1 | hm2
  · rcases List.mem_append.mp hm1 with h | h
    · exact hk h
    · exact absurd h (by decide)
  · exact hs hm2

theorem genBlocks_key_mem {fmp : SkillFrontmatterPartial}
    {b : String × Option String} (hb : b ∈ genBlocks fmp) :
    b.1 ∈ ["name", "description", "version", "disable-model-invocation",
      "user-invocable", "allowed-tools", "argument-hint", "model",
      "context", "agent"] := by
  simp only [genBlocks, List.mem_cons, List.not_mem_nil, or_false] at hb
  rcases hb with rfl | rfl | rfl | rfl | rfl | rfl | rfl | rfl | rfl | rfl <;> simp

theorem genBlocks_keys_colon_free {fmp : SkillFrontmatterPartial}
    {b : String × Option String} (hb : b ∈ genBlocks fmp) : ':' ∉ b.1.data := by
  have h := genBlocks_key_mem hb
  simp only [List.mem_cons, List.not_mem_nil, or_false] at h
  rcases h with e | e | e | e | e | e | e | e | e | e <;> rw [e] <;> decide

theorem genBlocks_keys_newline_free {fmp : SkillFrontmatterPartial}
    {b : String × Option String} (hb : b ∈ genBlocks fmp) : '\n' ∉ b.1.data := by
  have h := genBlocks_key_mem hb
  simp only [List.mem_cons, List.not_mem_nil, or_false] at h
  rcases h with e | e | e | e | e | e | e | e | e | e <;> rw [e] <;> decide

theorem genBlocks_keys_nodup (fmp : SkillFrontmatterPartial) :
    ((genBlocks fmp).map Prod.fst).Nodup := by
  simp only [genBlocks, List.map_cons, List.map_nil]
  decide

/-- The generated document, split with `gray-matter`: the frontmatter block
parses back to `kvsOf (genBlocks fmp)` and the content is the body framed
by the two generated newlines. -/
theorem matterParse_generate (fmp : SkillFrontmatterPartial) (body : String)
    (hne : genYamlLines fmp ≠ [])
    (hnl : ∀ b ∈ genBlocks fmp, ∀ s, b.2 = some s → '\n' ∉ s.data) :
    matterParse (generateSkillMd fmp body) =
      some (kvsOf (genBlocks fmp), String.mk ('\n' :: (body.data ++ ['\n']))) := by
  have hLb := genYamlLines_eq_linesOf fmp
  have hlines : ∀ l ∈ genYamlLines fmp, '\n' ∉ l.data ∧ (l == "---") = false := by
    intro l hl
    rw [hLb] at hl
    obtain ⟨b, hb, s, hv, rfl⟩ := mem_linesOf hl
    exact ⟨genLine_no_newline (genBlocks_keys_newline_free hb)
      (hnl b hb s hv), genLine_ne_dashes b.1 s⟩
  have hyaml : parseYaml [] (genYamlLines fmp) = some (kvsOf (genBlocks fmp)) := by
    rw [hLb]
    have := parseYaml_linesOf (genBlocks fmp) []
      (fun b hb => genBlocks_keys_colon_free hb) (genBlocks_keys_nodup fmp)
      (fun b _ => rfl)
    simpa using this
  -- the char-level shape of the generated document
  have hdoc : (generateSkillMd fmp body).data =
      ("---" : String).data ++ '\n' ::
        (joinCh '\n' ((genYamlLines fmp).map String.data) ++ '\n' ::
          (("---" : String).data ++ '\n' ::
            ('\n' :: (body.data ++ ('\n' :: []))))) := by
    show (("---\n" ++ jsJoin '\n' (genYamlLines fmp) ++ "\n---\n\n" ++ body
        ++ "\n") : String).data = _
    have h1 : (( "---\n" ++ jsJoin '\n' (genYamlLines fmp) ++ "\n---\n\n"
        ++ body ++ "\n") : String).data =
        ("---\n" : String).data ++ (jsJoin '\n' (genYamlLines fmp)).data
          ++ ("\n---\n\n" : String).data ++ body.data ++ ("\n" : String).data := rfl
    rw [h1]
    show ('-' :: '-' :: '-' :: '\n' :: []) ++
        joinCh '\n' ((genYamlLines fmp).map String.data)
        ++ ('\n' :: '-' :: '-' :: '-' :: '\n' :: '\n' :: []) ++ body.data
        ++ ('\n' :: []) = _
    simp [List.append_assoc]
  -- the line-level shape
  have hsplit : jsSplit '\n' (generateSkillMd fmp body) =
      "---" :: (genYamlLines fmp ++
        ("---" :: "" :: (jsSplit '\n' body ++ [""]))) := by
    unfold jsSplit
    rw [hdoc]
    rcases hL : (genYamlLines fmp).map String.data with _ | ⟨p, ps⟩
    · exact absurd (List.map_eq_nil_iff.mp hL) hne
    · have hps : ∀ q ∈ p :: ps, '\n' ∉ q := by
        intro q hq
        rw [← hL] at hq
        obtain ⟨l, hl, rfl⟩ := List.mem_map.mp hq
        exact (hlines l hl).1
      rw [splitCh_append_cons '\n' _ (by decide)]
      rw [splitCh_joinCh_append '\n' p ps _
        (hps p (List.mem_cons_self p ps))
        (fun q hq => hps q (List.mem_cons_of_mem p hq))]
      rw [splitCh_append_cons '\n' _ (by decide), splitCh_cons_self,
        splitCh_append_last]
      rw [← hL]
      simp [List.map_cons, List.map_append, map_mk_data, map_mk_comp_data,
        str_eta, str_mk_nil]
  -- assemble matterParse
  have hfind : List.findIdx? (fun l => l == "---")
      (genYamlLines fmp ++ ("---" :: "" :: (jsSplit '\n' body ++ [""]))) =
      some (genYamlLines fmp).length :=
    findIdx_after _ _ _ _ (fun x hx => (hlines x hx).2) (by decide)
  have hjoin : jsJoin '\n' ("" :: (jsSplit '\n' body ++ [""])) =
      String.mk ('\n' :: (body.data ++ ['\n'])) := by
    unfold jsJoin
    have hmap : ("" :: (jsSplit '\n' body ++ [""])).map String.data =
        [] :: (splitCh '\n' body.data ++ [[]]) := by
      rw [List.map_cons, List.map_append]
      unfold jsSplit
      rw [map_data_mk]
      rfl
    rw [hmap]
    rcases hsp : splitCh '\n' body.data with _ | ⟨p, ps⟩
    · exact absurd hsp (splitCh_ne_nil '\n' body.data)
    · show String.mk ([] ++ '\n' :: joinCh '\n' ((p :: ps) ++ [[]])) = _
      rw [joinCh_append_single '\n' (p :: ps) [] (by simp), ← hsp,
        joinCh_splitCh]
      rfl
  have hdc : (genYamlLines fmp ++ ("---" :: "" :: (jsSplit '\n' body ++ [""]))).drop
      ((genYamlLines fmp).length + 1) = "" :: (jsSplit '\n' body ++ [""]) :=
    drop_append_cons _ _ _
  simp only [matterParse, hsplit, hfind, List.take_left, hyaml, hdc, hjoin]
  simp

theorem kvsOf_cons (b : String × Option String)
    (bs : List (String × Option String)) :
    kvsOf (b :: bs) = (match b.2 with
      | some s => [(b.1, retypeScalar (jsTrim s))]
      | none => []) ++ kvsOf bs := rfl

theorem lookup_kvsOf_skip (k : String) (b : String × Option String)
    (bs : List (String × Option String)) (hne : k ≠ b.1) :
    (kvsOf (b :: bs)).lookup k = (kvsOf bs).lookup k := by
  rw [kvsOf_cons]
  cases hv : b.2 with
  | none => rfl
  | some s =>
    show List.lookup k ((b.1, retypeScalar (jsTrim s)) :: kvsOf bs) = _
    have hb : (k == b.1) = false := beq_eq_false_iff_ne.mpr hne
    simp [List.lookup_cons, hb]

theorem lookup_kvsOf_head (k : String) (v : Option String)
    (bs : List (String × Option String))
    (hrest : (kvsOf bs).lookup k = none) :
    (kvsOf ((k, v) :: bs)).lookup k =
      v.map (fun s => retypeScalar (jsTrim s)) := by
  cases v with
  | none => exact hrest
  | some s =>
    show List.lookup k ((k, retypeScalar (jsTrim s)) :: kvsOf bs) = _
    simp [List.lookup_cons]

theorem lookup_kvsOf_nil (k : String) : (kvsOf []).lookup k = none := rfl

theorem truthyOptStr_eq_self {v : Option String}
    (h : ∀ s, v = some s → s ≠ "") : truthyOptStr v = v := by
  cases v with
  | none => rfl
  | some s => simp [truthyOptStr, h s rfl]

theorem toolsVal_eq_join {v : Option (List String)}
    (h : ∀ ts, v = some ts → ts ≠ []) :
    toolsVal v = v.map (joinWithSep ", ") := by
  cases v with
  | none => rfl
  | some ts => simp [toolsVal, h ts rfl]

theorem retype_boolStr (b : Bool) :
    retypeScalar (jsTrim (boolStr b)) = RawVal.vbool b := by
  cases b <;> decide

theorem retype_ctxStr (c : ContextType) :
    retypeScalar (jsTrim (ctxStr c)) = RawVal.vstr (ctxStr c) := by
  cases c <;> decide

theorem desc_len_ne_empty {s : String} (h : 10 ≤ s.data.length) : s ≠ "" := by
  intro e
  rw [e] at h
  simp at h

theorem sStab_ne_empty {s : String} (h : sStab s) : s ≠ "" := h.2.1

theorem mem_of_lookup {α : Type} {l : List (String × α)} {k : String} {v : α}
    (h : l.lookup k = some v) : (k, v) ∈ l := by
  induction l with
  | nil => simp at h
  | cons p t ih =>
    rcases p with ⟨k', v'⟩
    simp only [List.lookup_cons] at h
    cases hk : (k == k') with
    | true =>
      rw [hk] at h
      have hkk : k = k' := by simpa using hk
      have hv : v' = v := by simpa using h
      rw [← hkk, hv] at *
      exact List.mem_cons_self _ _
    | false =>
      rw [hk] at h
      exact List.mem_cons_of_mem _ (ih h)

theorem trim_decomp (l : List Char) :
    ∃ p q, l = p ++ (trimList l ++ q) ∧ (∀ c ∈ p, wsChar c = true) ∧
      (∀ c ∈ q, wsChar c = true) := by
  obtain ⟨p, hp, hpw⟩ := dropWhile_pre_exists wsChar l
  obtain ⟨r, hr, hrw⟩ := dropWhile_pre_exists wsChar (l.dropWhile wsChar).reverse
  refine ⟨p, r.reverse, ?_, hpw, fun c hc => hrw c (List.mem_reverse.mp hc)⟩
  have h2 : trimList l ++ r.reverse = l.dropWhile wsChar := by
    have h := congrArg List.reverse hr
    rw [List.reverse_append, List.reverse_reverse] at h
    exact h
  rw [h2, hp]

theorem trimList_all_ws {l : List Char} (h : ∀ c ∈ l, wsChar c = true) :
    trimList l = [] := by
  have := trimList_ws_left h ([] : List Char)
  rw [List.append_nil] at this
  exact this

theorem splitCh_append_no_sep (c : Char) (m : List Char) {q : List Char}
    (hq : c ∉ q) :
    ∃ init last, splitCh c m = init ++ [last] ∧
      splitCh c (m ++ q) = init ++ [last ++ q] := by
  induction m with
  | nil =>
    refine ⟨[], [], rfl, ?_⟩
    rw [List.nil_append, splitCh_of_not_mem c hq]
    rfl
  | cons x xs ih =>
    obtain ⟨init, last, h1, h2⟩ := ih
    by_cases hx : x = c
    · subst hx
      refine ⟨[] :: init, last, ?_, ?_⟩
      · rw [splitCh_cons_self, h1]; rfl
      · rw [List.cons_append, splitCh_cons_self, h2]; rfl
    · cases init with
      | nil =>
        rw [List.nil_append] at h1 h2
        refine ⟨[], x :: last, ?_, ?_⟩
        · rw [splitCh_cons_ne c x xs hx h1]; rfl
        · rw [List.cons_append, splitCh_cons_ne c x (xs ++ q) hx h2,
            List.nil_append, List.cons_append]
      | cons i0 ir =>
        rw [List.cons_append] at h1 h2
        refine ⟨(x :: i0) :: ir, last, ?_, ?_⟩
        · rw [splitCh_cons_ne c x xs hx h1]; rfl
        · rw [List.cons_append, splitCh_cons_ne c x (xs ++ q) hx h2]; rfl

theorem jsTrim_mk_ws_left {p a : List Char} (hp : ∀ c ∈ p, wsChar c = true) :
    jsTrim (String.mk (p ++ a)) = jsTrim (String.mk a) := by
  show String.mk (trimList (p ++ a)) = String.mk (trimList a)
  rw [trimList_ws_left hp]

theorem jsTrim_mk_ws_right {q a : List Char} (hq : ∀ c ∈ q, wsChar c = true) :
    jsTrim (String.mk (a ++ q)) = jsTrim (String.mk a) := by
  show String.mk (trimList (a ++ q)) = String.mk (trimList a)
  rw [trimList_ws_right hq]

theorem map_trim_splitCh_trim (s : String) :
    (jsSplit ',' (jsTrim s)).map jsTrim = (jsSplit ',' s).map jsTrim := by
  obtain ⟨p, q, hdec, hp, hq⟩ := trim_decomp s.data
  have hcp : ',' ∉ p := fun hm => by
    have := hp ',' hm
    simp [wsChar] at this
  have hcq : ',' ∉ q := fun hm => by
    have := hq ',' hm
    simp [wsChar] at this
  have htd : (jsTrim s).data = trimList s.data := rfl
  obtain ⟨init, last, h1, h2⟩ := splitCh_append_no_sep ',' (trimList s.data) hcq
  show ((splitCh ',' (jsTrim s).data).map String.mk).map jsTrim =
    ((splitCh ',' s.data).map String.mk).map jsTrim
  cases init with
  | nil =>
    rw [List.nil_append] at h1 h2
    have hs1 : splitCh ',' s.data = [p ++ (last ++ q)] := by
      rw [hdec]
      exact splitCh_append_of_not_mem ',' _ hcp h2
    rw [htd, h1, hs1]
    simp [jsTrim_mk_ws_left hp, jsTrim_mk_ws_right hq]
  | cons i0 ir =>
    rw [List.cons_append] at h1 h2
    have hs1 : splitCh ',' s.data = (p ++ i0) :: (ir ++ [last ++ q]) := by
      rw [hdec]
      exact splitCh_append_of_not_mem ',' _ hcp h2
    rw [htd, h1, hs1]
    simp [List.map_append, jsTrim_mk_ws_left hp, jsTrim_mk_ws_right hq]

theorem mem_split_trim {s0 x : String} (hx : x ∈ (jsSplit ',' s0).map jsTrim) :
    ',' ∉ x.data ∧ jsTrim x = x := by
  rcases List.mem_map.mp hx with ⟨y, hy, hxy⟩
  rcases List.mem_map.mp hy with ⟨p, hps, hpy⟩
  subst hpy
  subst hxy
  constructor
  · intro hc
    have hsub : trimList p ⊆ p := trimList_subset p
    exact not_mem_of_mem_splitCh hps (hsub hc)
  · exact jsTrim_idem _

theorem split_join_trim (t : String) (ts : List String)
    (h : ∀ x ∈ t :: ts, ',' ∉ x.data ∧ jsTrim x = x) :
    (jsSplit ',' (joinWithSep ", " (t :: ts))).map jsTrim = t :: ts := by
  induction ts generalizing t with
  | nil =>
    have h1 := h t (List.mem_cons_self t [])
    show ((splitCh ',' t.data).map String.mk).map jsTrim = [t]
    rw [splitCh_of_not_mem ',' h1.1]
    simp [str_eta, h1.2]
  | cons t' ts' ih =>
    have h1 := h t (List.mem_cons_self t (t' :: ts'))
    have hih := ih t' (fun x hx => h x (List.mem_cons_of_mem t hx))
    have hd : (joinWithSep ", " (t :: t' :: ts')).data =
        t.data ++ ',' :: (' ' :: (joinWithSep ", " (t' :: ts')).data) := by
      show (t ++ ", " ++ joinWithSep ", " (t' :: ts')).data = _
      rw [str_data_append, str_data_append, List.append_assoc]
      rfl
    rcases hsj : splitCh ',' (joinWithSep ", " (t' :: ts')).data with _ | ⟨a, tl⟩
    · exact absurd hsj (splitCh_ne_nil _ _)
    have hs2 : splitCh ',' (' ' :: (joinWithSep ", " (t' :: ts')).data) =
        (' ' :: a) :: tl := splitCh_cons_ne ',' ' ' _ (by decide) hsj
    have hs3 : splitCh ','
        (t.data ++ ',' :: (' ' :: (joinWithSep ", " (t' :: ts')).data)) =
        t.data :: (' ' :: a) :: tl := by
      rw [splitCh_append_cons ',' _ h1.1, hs2]
    show ((splitCh ',' (joinWithSep ", " (t :: t' :: ts')).data).map
      String.mk).map jsTrim = t :: t' :: ts'
    rw [hd, hs3]
    show jsTrim (String.mk t.data) :: jsTrim (String.mk (' ' :: a)) ::
      (tl.map String.mk).map jsTrim = t :: t' :: ts'
    rw [str_eta, h1.2]
    have hwa : jsTrim (String.mk (' ' :: a)) = jsTrim (String.mk a) := by
      show String.mk (trimList (' ' :: a)) = String.mk (trimList a)
      rw [trimList_cons_ws (by decide)]
    rw [hwa]
    show (t :: jsTrim (String.mk a) :: (tl.map String.mk).map jsTrim :
      List String) = t :: t' :: ts'
    have hih2 : jsTrim (String.mk a) :: (tl.map String.mk).map jsTrim
        = t' :: ts' := by
      have he : (jsSplit ',' (joinWithSep ", " (t' :: ts'))).map jsTrim =
          jsTrim (String.mk a) :: (tl.map String.mk).map jsTrim := by
        show ((splitCh ','
          (joinWithSep ", " (t' :: ts')).data).map String.mk).map jsTrim = _
        rw [hsj]
        rfl
      rw [← he, hih]
    rw [hih2]

theorem tools_reparse (s0 : String) :
    (jsSplit ','
      (jsTrim (joinWithSep ", " ((jsSplit ',' s0).map jsTrim)))).map jsTrim =
      (jsSplit ',' s0).map jsTrim := by
  rcases hts : (jsSplit ',' s0).map jsTrim with _ | ⟨t, ts⟩
  · have := splitCh_ne_nil ',' s0.data
    have hn : jsSplit ',' s0 ≠ [] := by
      intro he
      exact this (List.map_eq_nil_iff.mp he)
    exact absurd (List.map_eq_nil_iff.mp hts) hn
  · have hmem : ∀ x ∈ t :: ts, ',' ∉ x.data ∧ jsTrim x = x := by
      intro x hx
      exact @mem_split_trim s0 x (hts ▸ hx)
    rw [map_trim_splitCh_trim, split_join_trim t ts hmem]

theorem comma_mem_trim {s : String} (h : ',' ∈ s.data) :
    ',' ∈ (jsTrim s).data := by
  obtain ⟨p, q, hdec, hp, hq⟩ := trim_decomp s.data
  have htd : (jsTrim s).data = trimList s.data := rfl
  rw [htd]
  rw [hdec] at h
  rcases List.mem_append.mp h with hin | hin
  · have := hp ',' hin
    simp [wsChar] at this
  · rcases List.mem_append.mp hin with hin2 | hin2
    · exact hin2
    · have := hq ',' hin2
      simp [wsChar] at this

theorem retype_comma {s : String} (h : ',' ∈ s.data) :
    retypeScalar s = RawVal.vstr s := by
  have hne : s ≠ "" := by
    intro he
    rw [he] at h
    simp at h
  have hnt : s ≠ "true" := by
    intro he
    rw [he] at h
    simp at h
  have hnf : s ≠ "false" := by
    intro he
    rw [he] at h
    simp at h
  have hnd : s.data.all Char.isDigit = false := by
    cases hall : s.data.all Char.isDigit with
    | false => rfl
    | true =>
      have := List.all_eq_true.mp hall ',' h
      simp [Char.isDigit] at this
  rw [retypeScalar, if_neg hne, if_neg hnt, if_neg hnf, hnd]
  simp

theorem retype_join_tools {s0 : String} (hs0 : sStab s0) :
    retypeScalar (jsTrim (joinWithSep ", " ((jsSplit ',' s0).map jsTrim))) =
      RawVal.vstr (jsTrim (joinWithSep ", " ((jsSplit ',' s0).map jsTrim))) := by
  rcases hsp : splitCh ',' s0.data with _ | ⟨p1, rest⟩
  · exact absurd hsp (splitCh_ne_nil ',' s0.data)
  cases rest with
  | nil =>
    have hjp : joinCh ',' (splitCh ',' s0.data) = s0.data := joinCh_splitCh ',' s0.data
    rw [hsp] at hjp
    have hp1 : p1 = s0.data := hjp
    have hts : (jsSplit ',' s0).map jsTrim = [s0] := by
      show ((splitCh ',' s0.data).map String.mk).map jsTrim = [s0]
      rw [hsp, hp1]
      simp [str_eta, hs0.1]
    rw [hts]
    show retypeScalar (jsTrim s0) = RawVal.vstr (jsTrim s0)
    rw [hs0.1]
    have hr := retypeScalar_of_sStab hs0
    rw [hs0.1] at hr
    exact hr
  | cons p2 rest' =>
    rcases hts : (jsSplit ',' s0).map jsTrim with _ | ⟨t, ts⟩
    · have : splitCh ',' s0.data = [] := by
        have h1 := List.map_eq_nil_iff.mp hts
        exact List.map_eq_nil_iff.mp h1
      exact absurd this (splitCh_ne_nil ',' s0.data)
    cases ts with
    | nil =>
      have hlen := congrArg List.length hts
      show _ = _
      rw [jsSplit, hsp] at hlen
      simp at hlen
    | cons t2 ts' =>
      have hcj : ',' ∈ (joinWithSep ", " (t :: t2 :: ts')).data := by
        show ',' ∈ (t ++ ", " ++ joinWithSep ", " (t2 :: ts')).data
        rw [str_data_append, str_data_append]
        refine List.mem_append.mpr (Or.inl ?_)
        refine List.mem_append.mpr (Or.inr ?_)
        decide
      exact retype_comma (comma_mem_trim hcj)

theorem lookup_kvsOf_keys {k : String} {bs : List (String × Option String)}
    (h : (bs.map Prod.fst).all (fun x => k != x) = true) :
    (kvsOf bs).lookup k = none := by
  induction bs with
  | nil => rfl
  | cons b t ih =>
    simp only [List.map_cons, List.all_cons, Bool.and_eq_true, bne_iff_ne] at h
    rw [lookup_kvsOf_skip k b t h.1]
    exact ih (by simp only [List.all_eq_true, bne_iff_ne]; exact fun x hx =>
      bne_iff_ne.mp ((List.all_eq_true.mp h.2) x hx))

theorem lookup_kvsOf_split (k : String) (bs1 : List (String × Option String))
    (v : Option String) (bs2 : List (String × Option String))
    (h1 : (bs1.map Prod.fst).all (fun x => k != x) = true)
    (h2 : (bs2.map Prod.fst).all (fun x => k != x) = true) :
    (kvsOf (bs1 ++ (k, v) :: bs2)).lookup k =
      v.map (fun s => retypeScalar (jsTrim s)) := by
  induction bs1 with
  | nil =>
    rw [List.nil_append]
    exact lookup_kvsOf_head k v bs2 (lookup_kvsOf_keys h2)
  | cons b t ih =>
    simp only [List.map_cons, List.all_cons, Bool.and_eq_true, bne_iff_ne] at h1
    rw [List.cons_append, lookup_kvsOf_skip k b _ h1.1]
    exact ih (by simp only [List.all_eq_true, bne_iff_ne]; exact fun x hx =>
      bne_iff_ne.mp ((List.all_eq_true.mp h1.2) x hx))

theorem truthyOptStr_some {s : String} (h : s ≠ "") :
    truthyOptStr (some s) = some s := by
  simp [truthyOptStr, h]

theorem parseOptStr_none {data : List (String × RawVal)} {k : String}
    (h : data.lookup k = none) : parseOptStr data k = some none := by
  unfold parseOptStr
  rw [h]

theorem parseOptStr_some {data : List (String × RawVal)} {k : String}
    {s : String} (h : data.lookup k = some (RawVal.vstr s)) :
    parseOptStr data k = some (some s) := by
  unfold parseOptStr
  rw [h]

theorem parseNameField_eval {data : List (String × RawVal)} {s : String}
    (h : data.lookup "name" = some (RawVal.vstr s)) (h1 : s ≠ "")
    (h2 : s.data.all nameChar = true) : parseNameField data = some s := by
  unfold parseNameField
  rw [h]
  simp [h1, h2]

theorem parseDescriptionField_eval {data : List (String × RawVal)} {s : String}
    (h : data.lookup "description" = some (RawVal.vstr s))
    (h1 : 10 ≤ s.data.length) : parseDescriptionField data = some s := by
  unfold parseDescriptionField
  rw [h]
  show (if 10 ≤ s.data.length then some s else none : Option String) = some s
  rw [if_pos h1]

theorem parseVersionField_none {data : List (String × RawVal)}
    (h : data.lookup "version" = none) : parseVersionField data = some none := by
  unfold parseVersionField
  rw [h]

theorem parseVersionField_eval {data : List (String × RawVal)} {s : String}
    (h : data.lookup "version" = some (RawVal.vstr s))
    (h1 : semverOK s = true) : parseVersionField data = some (some s) := by
  unfold parseVersionField
  rw [h]
  simp [h1]

theorem parseBoolD_eval {data : List (String × RawVal)} {k : String} {b : Bool}
    (h : data.lookup k = some (RawVal.vbool b)) (d : Bool) :
    parseBoolD data k d = some b := by
  unfold parseBoolD
  rw [h]

theorem parseToolsField_none {data : List (String × RawVal)}
    (h : data.lookup "allowed-tools" = none) :
    parseToolsField data = some none := by
  unfold parseToolsField
  rw [h]

theorem parseToolsField_eval {data : List (String × RawVal)} {s : String}
    (h : data.lookup "allowed-tools" = some (RawVal.vstr s)) :
    parseToolsField data = some (some ((jsSplit ',' s).map jsTrim)) := by
  unfold parseToolsField
  rw [h]

theorem parseContextField_none {data : List (String × RawVal)}
    (h : data.lookup "context" = none) : parseContextField data = some none := by
  unfold parseContextField
  rw [h]

theorem parseContextField_ctx {data : List (String × RawVal)} {c : ContextType}
    (h : data.lookup "context" = some (RawVal.vstr (ctxStr c))) :
    parseContextField data = some (some c) := by
  cases c with
  | normal =>
    unfold parseContextField
    rw [h]
    simp [ctxStr]
  | fork =>
    unfold parseContextField
    rw [h]
    simp [ctxStr]

theorem parseAuthorField_none {data : List (String × RawVal)}
    (h : data.lookup "author" = none) : parseAuthorField data = some none := by
  unfold parseAuthorField
  rw [h]

theorem parseKeywordsField_none {data : List (String × RawVal)}
    (h : data.lookup "keywords" = none) :
    parseKeywordsField data = some none := by
  unfold parseKeywordsField
  rw [h]

theorem schema_reparse (fm : SkillFrontmatter)
    (hnm : sStab fm.name) (hnmc : fm.name.data.all nameChar = true)
    (hds : sStab fm.description) (hdl : 10 ≤ fm.description.data.length)
    (hver : ∀ v, fm.version = some v → sStab v ∧ semverOK v = true)
    (htools : ∀ ts, fm.allowedTools = some ts →
      ∃ s0, sStab s0 ∧ ts = (jsSplit ',' s0).map jsTrim)
    (hah : ∀ v, fm.argumentHint = some v → sStab v)
    (hmo : ∀ v, fm.model = some v → sStab v)
    (hag : ∀ v, fm.agent = some v → sStab v)
    (hlic : fm.license = none) (hau : fm.author = none)
    (hkw : fm.keywords = none) (hrep : fm.repository = none) :
    skillFrontmatterSchema (kvsOf (genBlocks fm.toPartial)) = some fm := by
  have htne : ∀ ts, fm.allowedTools = some ts → ts ≠ [] := by
    intro ts hts he
    obtain ⟨s0, _, hts2⟩ := htools ts hts
    rw [hts2] at he
    exact splitCh_ne_nil ',' s0.data
      (List.map_eq_nil_iff.mp (List.map_eq_nil_iff.mp he))
  have hlk1 : (kvsOf (genBlocks fm.toPartial)).lookup "name" =
      (truthyOptStr (some fm.name)).map (fun s => retypeScalar (jsTrim s)) :=
    lookup_kvsOf_split "name" [] _ _ (by simp) (by simp)
  have hlk2 : (kvsOf (genBlocks fm.toPartial)).lookup "description" =
      (truthyOptStr (some fm.description)).map
        (fun s => retypeScalar (jsTrim s)) :=
    lookup_kvsOf_split "description" ((genBlocks fm.toPartial).take 1) _ _
      (by simp [genBlocks]) (by simp)
  have hlk3 : (kvsOf (genBlocks fm.toPartial)).lookup "version" =
      (truthyOptStr fm.version).map (fun s => retypeScalar (jsTrim s)) :=
    lookup_kvsOf_split "version" ((genBlocks fm.toPartial).take 2) _ _
      (by simp [genBlocks]) (by simp)
  have hlk4 : (kvsOf (genBlocks fm.toPartial)).lookup "disable-model-invocation" =
      ((some fm.disableModelInvocation).map boolStr).map
        (fun s => retypeScalar (jsTrim s)) :=
    lookup_kvsOf_split "disable-model-invocation"
      ((genBlocks fm.toPartial).take 3) _ _ (by simp [genBlocks]) (by simp)
  have hlk5 : (kvsOf (genBlocks fm.toPartial)).lookup "user-invocable" =
      ((some fm.userInvocable).map boolStr).map
        (fun s => retypeScalar (jsTrim s)) :=
    lookup_kvsOf_split "user-invocable" ((genBlocks fm.toPartial).take 4) _ _
      (by simp [genBlocks]) (by simp)
  have hlk6 : (kvsOf (genBlocks fm.toPartial)).lookup "allowed-tools" =
      (toolsVal fm.allowedTools).map (fun s => retypeScalar (jsTrim s)) :=
    lookup_kvsOf_split "allowed-tools" ((genBlocks fm.toPartial).take 5) _ _
      (by simp [genBlocks]) (by simp)
  have hlk7 : (kvsOf (genBlocks fm.toPartial)).lookup "argument-hint" =
      (truthyOptStr fm.argumentHint).map (fun s => retypeScalar (jsTrim s)) :=
    lookup_kvsOf_split "argument-hint" ((genBlocks fm.toPartial).take 6) _ _
      (by simp [genBlocks]) (by simp)
  have hlk8 : (kvsOf (genBlocks fm.toPartial)).lookup "model" =
      (truthyOptStr fm.model).map (fun s => retypeScalar (jsTrim s)) :=
    lookup_kvsOf_split "model" ((genBlocks fm.toPartial).take 7) _ _
      (by simp [genBlocks]) (by simp)
  have hlk9 : (kvsOf (genBlocks fm.toPartial)).lookup "context" =
      (fm.context.map ctxStr).map (fun s => retypeScalar (jsTrim s)) :=
    lookup_kvsOf_split "context" ((genBlocks fm.toPartial).take 8) _ _
      (by simp [genBlocks]) (by simp)
  have hlk10 : (kvsOf (genBlocks fm.toPartial)).lookup "agent" =
      (truthyOptStr fm.agent).map (fun s => retypeScalar (jsTrim s)) :=
    lookup_kvsOf_split "agent" ((genBlocks fm.toPartial).take 9) _ _
      (by simp [genBlocks]) (by simp)
  have hv1 : (kvsOf (genBlocks fm.toPartial)).lookup "name" =
      some (RawVal.vstr fm.name) := by
    rw [hlk1, truthyOptStr_some hnm.2.1]
    show some (retypeScalar (jsTrim fm.name)) = _
    rw [retypeScalar_of_sStab hnm]
  have p1 : parseNameField (kvsOf (genBlocks fm.toPartial)) = some fm.name :=
    parseNameField_eval hv1 hnm.2.1 hnmc
  have hv2 : (kvsOf (genBlocks fm.toPartial)).lookup "description" =
      some (RawVal.vstr fm.description) := by
    rw [hlk2, truthyOptStr_some (desc_len_ne_empty hdl)]
    show some (retypeScalar (jsTrim fm.description)) = _
    rw [retypeScalar_of_sStab hds]
  have p2 : parseDescriptionField (kvsOf (genBlocks fm.toPartial)) =
      some fm.description := parseDescriptionField_eval hv2 hdl
  have p3 : parseVersionField (kvsOf (genBlocks fm.toPartial)) =
      some fm.version := by
    cases hcv : fm.version with
    | none =>
      apply parseVersionField_none
      rw [hlk3, hcv]
      rfl
    | some v =>
      have hv3 : (kvsOf (genBlocks fm.toPartial)).lookup "version" =
          some (RawVal.vstr v) := by
        rw [hlk3, hcv, truthyOptStr_some (hver v hcv).1.2.1]
        show some (retypeScalar (jsTrim v)) = _
        rw [retypeScalar_of_sStab (hver v hcv).1]
      exact parseVersionField_eval hv3 (hver v hcv).2
  have hv4 : (kvsOf (genBlocks fm.toPartial)).lookup "disable-model-invocation" =
      some (RawVal.vbool fm.disableModelInvocation) := by
    rw [hlk4]
    show some (retypeScalar (jsTrim (boolStr fm.disableModelInvocation))) = _
    rw [retype_boolStr]
  have p4 : parseBoolD (kvsOf (genBlocks fm.toPartial))
      "disable-model-invocation" false = some fm.disableModelInvocation :=
    parseBoolD_eval hv4 false
  have hv5 : (kvsOf (genBlocks fm.toPartial)).lookup "user-invocable" =
      some (RawVal.vbool fm.userInvocable) := by
    rw [hlk5]
    show some (retypeScalar (jsTrim (boolStr fm.userInvocable))) = _
    rw [retype_boolStr]
  have p5 : parseBoolD (kvsOf (genBlocks fm.toPartial)) "user-invocable" true =
      some fm.userInvocable := parseBoolD_eval hv5 true
  have p6 : parseToolsField (kvsOf (genBlocks fm.toPartial)) =
      some fm.allowedTools := by
    cases hct : fm.allowedTools with
    | none =>
      apply parseToolsField_none
      rw [hlk6, hct]
      rfl
    | some ts =>
      obtain ⟨s0, hs0, hts⟩ := htools ts hct
      subst hts
      have hv6 : (kvsOf (genBlocks fm.toPartial)).lookup "allowed-tools" =
          some (RawVal.vstr
            (jsTrim (joinWithSep ", " ((jsSplit ',' s0).map jsTrim)))) := by
        rw [hlk6, hct, show toolsVal (some ((jsSplit ',' s0).map jsTrim)) =
          some (joinWithSep ", " ((jsSplit ',' s0).map jsTrim)) from by
            simp [toolsVal, htne _ hct]]
        show some (retypeScalar
          (jsTrim (joinWithSep ", " ((jsSplit ',' s0).map jsTrim)))) = _
        rw [retype_join_tools hs0]
      have hp6 := parseToolsField_eval hv6
      rw [tools_reparse s0] at hp6
      exact hp6
  have p7 : parseOptStr (kvsOf (genBlocks fm.toPartial)) "argument-hint" =
      some fm.argumentHint := by
    cases hc : fm.argumentHint with
    | none =>
      apply parseOptStr_none
      rw [hlk7, hc]
      rfl
    | some v =>
      have hv7 : (kvsOf (genBlocks fm.toPartial)).lookup "argument-hint" =
          some (RawVal.vstr v) := by
        rw [hlk7, hc, truthyOptStr_some (hah v hc).2.1]
        show some (retypeScalar (jsTrim v)) = _
        rw [retypeScalar_of_sStab (hah v hc)]
      exact parseOptStr_some hv7
  have p8 : parseOptStr (kvsOf (genBlocks fm.toPartial)) "model" =
      some fm.model := by
    cases hc : fm.model with
    | none =>
      apply parseOptStr_none
      rw [hlk8, hc]
      rfl
    | some v =>
      have hv8 : (kvsOf (genBlocks fm.toPartial)).lookup "model" =
          some (RawVal.vstr v) := by
        rw [hlk8, hc, truthyOptStr_some (hmo v hc).2.1]
        show some (retypeScalar (jsTrim v)) = _
        rw [retypeScalar_of_sStab (hmo v hc)]
      exact parseOptStr_some hv8
  have p9 : parseContextField (kvsOf (genBlocks fm.toPartial)) =
      some fm.context := by
    cases hc : fm.context with
    | none =>
      apply parseContextField_none
      rw [hlk9, hc]
      rfl
    | some c =>
      have hv9 : (kvsOf (genBlocks fm.toPartial)).lookup "context" =
          some (RawVal.vstr (ctxStr c)) := by
        rw [hlk9, hc]
        show some (retypeScalar (jsTrim (ctxStr c))) = _
        rw [retype_ctxStr]
      exact parseContextField_ctx hv9
  have p10 : parseOptStr (kvsOf (genBlocks fm.toPartial)) "agent" =
      some fm.agent := by
    cases hc : fm.agent with
    | none =>
      apply parseOptStr_none
      rw [hlk10, hc]
      rfl
    | some v =>
      have hv10 : (kvsOf (genBlocks fm.toPartial)).lookup "agent" =
          some (RawVal.vstr v) := by
        rw [hlk10, hc, truthyOptStr_some (hag v hc).2.1]
        show some (retypeScalar (jsTrim v)) = _
        rw [retypeScalar_of_sStab (hag v hc)]
      exact parseOptStr_some hv10
  have p11 : parseOptStr (kvsOf (genBlocks fm.toPartial)) "license" =
      some fm.license := by
    rw [hlic]
    exact parseOptStr_none (lookup_kvsOf_keys (by simp [genBlocks]))
  have p12 : parseAuthorField (kvsOf (genBlocks fm.toPartial)) =
      some fm.author := by
    rw [hau]
    exact parseAuthorField_none (lookup_kvsOf_keys (by simp [genBlocks]))
  have p13 : parseKeywordsField (kvsOf (genBlocks fm.toPartial)) =
      some fm.keywords := by
    rw [hkw]
    exact parseKeywordsField_none (lookup_kvsOf_keys (by simp [genBlocks]))
  have p14 : parseOptStr (kvsOf (genBlocks fm.toPartial)) "repository" =
      some fm.repository := by
    rw [hrep]
    exact parseOptStr_none (lookup_kvsOf_keys (by simp [genBlocks]))
  unfold skillFrontmatterSchema
  rw [p1, p2, p3, p4, p5, p6, p7, p8, p9, p10, p11, p12, p13, p14]
  rfl

theorem truthyOptStr_eq_some {o : Option String} {s : String}
    (h : truthyOptStr o = some s) : o = some s ∧ s ≠ "" := by
  cases o with
  | none => exact Option.noConfusion h
  | some t =>
    replace h : (if t = "" then none else some t) = some s := h
    by_cases he : t = ""
    · rw [if_pos he] at h
      exact Option.noConfusion h
    · rw [if_neg he] at h
      have ht := Option.some.inj h
      subst ht
      exact ⟨rfl, he⟩

theorem toolsVal_eq_some {o : Option (List String)} {s : String}
    (h : toolsVal o = some s) :
    ∃ ts, o = some ts ∧ s = joinWithSep ", " ts := by
  cases o with
  | none => exact Option.noConfusion h
  | some ts =>
    replace h : (if ts = [] then none else some (joinWithSep ", " ts)) = some s := h
    by_cases he : ts = []
    · rw [if_pos he] at h
      exact Option.noConfusion h
    · rw [if_neg he] at h
      exact ⟨ts, rfl, (Option.some.inj h).symm⟩

theorem boolStr_no_newline (b : Bool) : '\n' ∉ (boolStr b).data := by
  cases b <;> decide

theorem ctxStr_no_newline (c : ContextType) : '\n' ∉ (ctxStr c).data := by
  cases c <;> decide

theorem joinWithSep_no_newline {ts : List String}
    (h : ∀ t ∈ ts, '\n' ∉ t.data) :
    '\n' ∉ (joinWithSep ", " ts).data := by
  induction ts with
  | nil => simp [joinWithSep]
  | cons t rest ih =>
    cases rest with
    | nil => exact h t (List.mem_cons_self t [])
    | cons t' rest' =>
      show '\n' ∉ (t ++ ", " ++ joinWithSep ", " (t' :: rest')).data
      rw [str_data_append, str_data_append]
      intro hc
      rcases List.mem_append.mp hc with hc1 | hc2
      · rcases List.mem_append.mp hc1 with hc3 | hc4
        · exact h t (List.mem_cons_self t (t' :: rest')) hc3
        · simp at hc4
      · exact ih (fun x hx => h x (List.mem_cons_of_mem t hx)) hc2

theorem split_trim_no_newline {s0 : String} (h : '\n' ∉ s0.data) :
    ∀ t ∈ (jsSplit ',' s0).map jsTrim, '\n' ∉ t.data := by
  intro t ht hc
  rcases List.mem_map.mp ht with ⟨y, hy, rfl⟩
  rcases List.mem_map.mp hy with ⟨p, hp, rfl⟩
  exact h (subset_of_mem_splitCh hp (trimList_subset p hc))

theorem genYamlLines_toPartial_ne_nil (fm : SkillFrontmatter)
    (h : fm.name ≠ "") : genYamlLines fm.toPartial ≠ [] := by
  show optLine "name" (truthyOptStr (some fm.name)) ++
    optLine "description" (truthyOptStr (some fm.description)) ++
    optLine "version" (truthyOptStr fm.version) ++
    optLine "disable-model-invocation"
      ((some fm.disableModelInvocation).map boolStr) ++
    optLine "user-invocable" ((some fm.userInvocable).map boolStr) ++
    optLine "allowed-tools" (toolsVal fm.allowedTools) ++
    optLine "argument-hint" (truthyOptStr fm.argumentHint) ++
    optLine "model" (truthyOptStr fm.model) ++
    optLine "context" (fm.context.map ctxStr) ++
    optLine "agent" (truthyOptStr fm.agent) ≠ []
  rw [truthyOptStr_some h]
  simp [optLine]

theorem genBlocks_no_newline (fm : SkillFrontmatter)
    (hnm : '\n' ∉ fm.name.data) (hds : '\n' ∉ fm.description.data)
    (hver : ∀ v, fm.version = some v → '\n' ∉ v.data)
    (htools : ∀ ts, fm.allowedTools = some ts → ∀ t ∈ ts, '\n' ∉ t.data)
    (hah : ∀ v, fm.argumentHint = some v → '\n' ∉ v.data)
    (hmo : ∀ v, fm.model = some v → '\n' ∉ v.data)
    (hag : ∀ v, fm.agent = some v → '\n' ∉ v.data) :
    ∀ b ∈ genBlocks fm.toPartial, ∀ s, b.2 = some s → '\n' ∉ s.data := by
  intro b hb s hs
  simp only [genBlocks, List.mem_cons, List.not_mem_nil, or_false] at hb
  rcases hb with rfl | rfl | rfl | rfl | rfl | rfl | rfl | rfl | rfl | rfl
  · replace hs : truthyOptStr (some fm.name) = some s := hs
    obtain ⟨he, _⟩ := truthyOptStr_eq_some hs
    rw [← Option.some.inj he]
    exact hnm
  · replace hs : truthyOptStr (some fm.description) = some s := hs
    obtain ⟨he, _⟩ := truthyOptStr_eq_some hs
    rw [← Option.some.inj he]
    exact hds
  · replace hs : truthyOptStr fm.version = some s := hs
    obtain ⟨he, _⟩ := truthyOptStr_eq_some hs
    exact hver s he
  · replace hs : some (boolStr fm.disableModelInvocation) = some s := hs
    rw [← Option.some.inj hs]
    exact boolStr_no_newline fm.disableModelInvocation
  · replace hs : some (boolStr fm.userInvocable) = some s := hs
    rw [← Option.some.inj hs]
    exact boolStr_no_newline fm.userInvocable
  · replace hs : toolsVal fm.allowedTools = some s := hs
    obtain ⟨ts, hts, hjoin⟩ := toolsVal_eq_some hs
    rw [hjoin]
    exact joinWithSep_no_newline (htools ts hts)
  · replace hs : truthyOptStr fm.argumentHint = some s := hs
    obtain ⟨he, _⟩ := truthyOptStr_eq_some hs
    exact hah s he
  · replace hs : truthyOptStr fm.model = some s := hs
    obtain ⟨he, _⟩ := truthyOptStr_eq_some hs
    exact hmo s he
  · replace hs : fm.context.map ctxStr = some s := hs
    cases hc : fm.context with
    | none =>
      rw [hc] at hs
      exact Option.noConfusion hs
    | some c =>
      rw [hc] at hs
      rw [← Option.some.inj hs]
      exact ctxStr_no_newline c
  · replace hs : truthyOptStr fm.agent = some s := hs
    obtain ⟨he, _⟩ := truthyOptStr_eq_some hs
    exact hag s he

theorem jsTrim_wrap (body : String) (h : jsTrim body = body) :
    jsTrim (String.mk ('\n' :: (body.data ++ ['\n']))) = body := by
  show String.mk (trimList ('\n' :: (body.data ++ ['\n']))) = body
  rw [trimList_cons_ws (by decide), trimList_append_ws (by decide)]
  exact h

theorem sStab_of_retype {x s : String} (hnl : '\n' ∉ x.data)
    (h : retypeScalar (jsTrim x) = RawVal.vstr s) : sStab s := by
  obtain ⟨hse, hne, hnt, hnf, hnd⟩ := retypeScalar_vstr_inv h
  subst hse
  exact ⟨jsTrim_idem x, hne, hnt, hnf, hnd,
    fun hc => hnl (trimList_subset x.data hc)⟩

theorem lineKV_value_stable {l k : String} {rv : RawVal}
    (hnl : '\n' ∉ l.data) (h : lineKV l = some (k, rv)) : vstrStable rv := by
  replace h : (if (l.data.takeWhile (fun c => c != ':')).length =
      l.data.length then none
    else some (String.mk (l.data.takeWhile (fun c => c != ':')),
      retypeScalar (jsTrim ⟨l.data.drop
        ((l.data.takeWhile (fun c => c != ':')).length + 1)⟩))) =
      some (k, rv) := h
  by_cases hc : (l.data.takeWhile (fun c => c != ':')).length = l.data.length
  · rw [if_pos hc] at h
    exact Option.noConfusion h
  · rw [if_neg hc] at h
    have h2 := Option.some.inj h
    intro s hs
    have hrv : rv = retypeScalar (jsTrim ⟨l.data.drop
        ((l.data.takeWhile (fun c => c != ':')).length + 1)⟩) :=
      (congrArg Prod.snd h2).symm
    rw [hrv] at hs
    refine sStab_of_retype ?_ hs
    intro hm
    exact hnl (List.drop_subset _ _ hm)

theorem parseYaml_values_stable (ls : List String)
    (acc : List (String × RawVal)) (kvs : List (String × RawVal))
    (hls : ∀ l ∈ ls, '\n' ∉ l.data)
    (hacc : ∀ p ∈ acc, vstrStable p.2)
    (h : parseYaml acc ls = some kvs) :
    ∀ p ∈ kvs, vstrStable p.2 := by
  induction ls generalizing acc with
  | nil =>
    have he : acc = kvs := Option.some.inj h
    rw [← he]
    exact hacc
  | cons l ls ih =>
    replace h : (match lineKV l with
      | none => none
      | some (k, v) =>
        if (acc.map Prod.fst).contains k then none
        else parseYaml (acc ++ [(k, v)]) ls) = some kvs := h
    cases hl : lineKV l with
    | none =>
      rw [hl] at h
      exact Option.noConfusion h
    | some kv =>
      rcases kv with ⟨k, v⟩
      rw [hl] at h
      replace h : (if (acc.map Prod.fst).contains k then none
        else parseYaml (acc ++ [(k, v)]) ls) = some kvs := h
      by_cases hc : (acc.map Prod.fst).contains k = true
      · rw [if_pos hc] at h
        exact Option.noConfusion h
      · rw [if_neg hc] at h
        refine ih _ (fun x hx => hls x (List.mem_cons_of_mem l hx)) ?_ h
        intro p hp
        rcases List.mem_append.mp hp with hp1 | hp2
        · exact hacc p hp1
        · have hpe : p = (k, v) := by simpa using hp2
          rw [hpe]
          exact lineKV_value_stable (hls l (List.mem_cons_self l ls)) hl

theorem matterParse_stable {d : String} {data : List (String × RawVal)}
    {content : String} (h : matterParse d = some (data, content)) :
    ∀ p ∈ data, vstrStable p.2 := by
  have hlines : ∀ l ∈ jsSplit '\n' d, '\n' ∉ l.data := by
    intro l hl hc
    rcases List.mem_map.mp hl with ⟨p, hp, rfl⟩
    exact not_mem_of_mem_splitCh hp hc
  unfold matterParse at h
  cases hsp : jsSplit '\n' d with
  | nil =>
    rw [hsp] at h
    replace h : some (([] : List (String × RawVal)), d) =
      some (data, content) := h
    have hd := (Prod.mk.injEq _ _ _ _).mp (Option.some.inj h)
    rw [← hd.1]
    simp
  | cons first rest =>
    rw [hsp] at h
    replace h : (if first = "---" then
        match rest.findIdx? (fun l => l == "---") with
        | some i =>
          match parseYaml [] (rest.take i) with
          | some kvs => some (kvs, jsJoin '\n' (rest.drop (i + 1)))
          | none => none
        | none => none
      else some ([], d)) = some (data, content) := h
    by_cases hf : first = "---"
    · rw [if_pos hf] at h
      cases hfi : rest.findIdx? (fun l => l == "---") with
      | none =>
        rw [hfi] at h
        exact Option.noConfusion h
      | some i =>
        rw [hfi] at h
        replace h : (match parseYaml [] (rest.take i) with
          | some kvs => some (kvs, jsJoin '\n' (rest.drop (i + 1)))
          | none => none) = some (data, content) := h
        cases hy : parseYaml [] (rest.take i) with
        | none =>
          rw [hy] at h
          exact Option.noConfusion h
        | some kvs =>
          rw [hy] at h
          replace h : some (kvs, jsJoin '\n' (rest.drop (i + 1))) =
            some (data, content) := h
          have hd := (Prod.mk.injEq _ _ _ _).mp (Option.some.inj h)
          rw [← hd.1]
          refine parseYaml_values_stable (rest.take i) [] kvs ?_ (by simp) hy
          intro l hl
          refine hlines l ?_
          rw [hsp]
          exact List.mem_cons_of_mem first (List.mem_of_mem_take hl)
    · rw [if_neg hf] at h
      have hd := (Prod.mk.injEq _ _ _ _).mp (Option.some.inj h)
      rw [← hd.1]
      simp

theorem sStab_of_lookup {data : List (String × RawVal)} {k s : String}
    (hst : ∀ p ∈ data, vstrStable p.2)
    (h : data.lookup k = some (RawVal.vstr s)) : sStab s :=
  (hst _ (mem_of_lookup h)) s rfl

theorem parseSkillMd_shape {d : String} {fm : SkillFrontmatter}
    {body : String} (h : parseSkillMd d = some (fm, body)) :
    ∃ data content, matterParse d = some (data, content) ∧
      skillFrontmatterSchema data = some fm ∧ body = jsTrim content := by
  unfold parseSkillMd at h
  cases hm : matterParse d with
  | none =>
    rw [hm] at h
    exact Option.noConfusion h
  | some dc =>
    rcases dc with ⟨data, content⟩
    rw [hm] at h
    replace h : (match skillFrontmatterSchema data with
      | none => none
      | some fm => some (fm, jsTrim content)) = some (fm, body) := h
    cases hs : skillFrontmatterSchema data with
    | none =>
      rw [hs] at h
      exact Option.noConfusion h
    | some fm2 =>
      rw [hs] at h
      replace h : some (fm2, jsTrim content) = some (fm, body) := h
      have hd := (Prod.mk.injEq _ _ _ _).mp (Option.some.inj h)
      exact ⟨data, content, rfl, by rw [hs, hd.1], hd.2.symm⟩

theorem parseNameField_inv {data : List (String × RawVal)} {n : String}
    (h : parseNameField data = some n) :
    data.lookup "name" = some (RawVal.vstr n) ∧ n ≠ "" ∧
      n.data.all nameChar = true := by
  unfold parseNameField at h
  cases hl : data.lookup "name" with
  | none =>
    rw [hl] at h
    exact Option.noConfusion h
  | some rv =>
    rw [hl] at h
    cases rv with
    | vnull => exact Option.noConfusion h
    | vbool b => exact Option.noConfusion h
    | vnum r => exact Option.noConfusion h
    | vstr s =>
      replace h : (if decide (s ≠ "") && s.data.all nameChar then some s
        else none) = some n := h
      by_cases hc : (decide (s ≠ "") && s.data.all nameChar) = true
      · rw [if_pos hc] at h
        have hn := Option.some.inj h
        subst hn
        rw [Bool.and_eq_true] at hc
        exact ⟨rfl, of_decide_eq_true hc.1, hc.2⟩
      · rw [if_neg hc] at h
        exact Option.noConfusion h

theorem parseDescriptionField_inv {data : List (String × RawVal)}
    {dsc : String} (h : parseDescriptionField data = some dsc) :
    data.lookup "description" = some (RawVal.vstr dsc) ∧
      10 ≤ dsc.data.length := by
  unfold parseDescriptionField at h
  cases hl : data.lookup "description" with
  | none =>
    rw [hl] at h
    exact Option.noConfusion h
  | some rv =>
    rw [hl] at h
    cases rv with
    | vnull => exact Option.noConfusion h
    | vbool b => exact Option.noConfusion h
    | vnum r => exact Option.noConfusion h
    | vstr s =>
      replace h : (if 10 ≤ s.data.length then some s else none) = some dsc := h
      by_cases hc : 10 ≤ s.data.length
      · rw [if_pos hc] at h
        have hn := Option.some.inj h
        subst hn
        exact ⟨rfl, hc⟩
      · rw [if_neg hc] at h
        exact Option.noConfusion h

theorem parseVersionField_inv {data : List (String × RawVal)}
    {o : Option String} (h : parseVersionField data = some o) :
    o = none ∨ ∃ v, o = some v ∧
      data.lookup "version" = some (RawVal.vstr v) ∧ semverOK v = true := by
  unfold parseVersionField at h
  cases hl : data.lookup "version" with
  | none =>
    rw [hl] at h
    exact Or.inl (Option.some.inj h).symm
  | some rv =>
    rw [hl] at h
    cases rv with
    | vnull => exact Option.noConfusion h
    | vbool b => exact Option.noConfusion h
    | vnum r => exact Option.noConfusion h
    | vstr s =>
      replace h : (if semverOK s then some (some s) else none) = some o := h
      by_cases hc : semverOK s = true
      · rw [if_pos hc] at h
        exact Or.inr ⟨s, (Option.some.inj h).symm, rfl, hc⟩
      · rw [if_neg hc] at h
        exact Option.noConfusion h

theorem parseToolsField_inv {data : List (String × RawVal)}
    {o : Option (List String)} (h : parseToolsField data = some o) :
    o = none ∨ ∃ s0, data.lookup "allowed-tools" = some (RawVal.vstr s0) ∧
      o = some ((jsSplit ',' s0).map jsTrim) := by
  unfold parseToolsField at h
  cases hl : data.lookup "allowed-tools" with
  | none =>
    rw [hl] at h
    exact Or.inl (Option.some.inj h).symm
  | some rv =>
    rw [hl] at h
    cases rv with
    | vnull => exact Option.noConfusion h
    | vbool b => exact Option.noConfusion h
    | vnum r => exact Option.noConfusion h
    | vstr s => exact Or.inr ⟨s, rfl, (Option.some.inj h).symm⟩

theorem parseOptStr_inv {data : List (String × RawVal)} {k : String}
    {o : Option String} (h : parseOptStr data k = some o) :
    o = none ∨ ∃ v, o = some v ∧
      data.lookup k = some (RawVal.vstr v) := by
  unfold parseOptStr at h
  cases hl : data.lookup k with
  | none =>
    rw [hl] at h
    exact Or.inl (Option.some.inj h).symm
  | some rv =>
    rw [hl] at h
    cases rv with
    | vnull => exact Option.noConfusion h
    | vbool b => exact Option.noConfusion h
    | vnum r => exact Option.noConfusion h
    | vstr s => exact Or.inr ⟨s, (Option.some.inj h).symm, rfl⟩

theorem skillFrontmatterSchema_inv {data : List (String × RawVal)}
    {fm : SkillFrontmatter} (h : skillFrontmatterSchema data = some fm) :
    parseNameField data = some fm.name ∧
    parseDescriptionField data = some fm.description ∧
    parseVersionField data = some fm.version ∧
    parseToolsField data = some fm.allowedTools ∧
    parseOptStr data "argument-hint" = some fm.argumentHint ∧
    parseOptStr data "model" = some fm.model ∧
    parseOptStr data "agent" = some fm.agent := by
  unfold skillFrontmatterSchema at h
  obtain ⟨name, h1, h⟩ := Option.bind_eq_some.mp h
  obtain ⟨description, h2, h⟩ := Option.bind_eq_some.mp h
  obtain ⟨version, h3, h⟩ := Option.bind_eq_some.mp h
  obtain ⟨dmi, h4, h⟩ := Option.bind_eq_some.mp h
  obtain ⟨ui, h5, h⟩ := Option.bind_eq_some.mp h
  obtain ⟨allowedTools, h6, h⟩ := Option.bind_eq_some.mp h
  obtain ⟨argumentHint, h7, h⟩ := Option.bind_eq_some.mp h
  obtain ⟨model, h8, h⟩ := Option.bind_eq_some.mp h
  obtain ⟨context, h9, h⟩ := Option.bind_eq_some.mp h
  obtain ⟨agent, h10, h⟩ := Option.bind_eq_some.mp h
  obtain ⟨license, h11, h⟩ := Option.bind_eq_some.mp h
  obtain ⟨author, h12, h⟩ := Option.bind_eq_some.mp h
  obtain ⟨keywords, h13, h⟩ := Option.bind_eq_some.mp h
  obtain ⟨repository, h14, h⟩ := Option.bind_eq_some.mp h
  have hfm := Option.some.inj h
  exact ⟨by rw [h1, ← hfm], by rw [h2, ← hfm], by rw [h3, ← hfm],
    by rw [h6, ← hfm], by rw [h7, ← hfm], by rw [h8, ← hfm],
    by rw [h10, ← hfm]⟩

/-- The full round trip for `license`-, `author`-, `keywords`- and
`repository`-free frontmatter: regenerating a parsed document and parsing
it again returns the same frontmatter and body. -/
theorem generate_parse_core (d : String) (fm : SkillFrontmatter)
    (body : String) (h : parseSkillMd d = some (fm, body))
    (hlic : fm.license = none) (hau : fm.author = none)
    (hkw : fm.keywords = none) (hrep : fm.repository = none) :
    parseSkillMd (generateSkillMd fm.toPartial body) = some (fm, body) := by
  obtain ⟨data, content, hm, hs, hb⟩ := parseSkillMd_shape h
  have hst := matterParse_stable hm
  obtain ⟨q1, q2, q3, q6, q7, q8, q10⟩ := skillFrontmatterSchema_inv hs
  obtain ⟨hl1, hne1, hnc1⟩ := parseNameField_inv q1
  have hnm : sStab fm.name := sStab_of_lookup hst hl1
  obtain ⟨hl2, hdl⟩ := parseDescriptionField_inv q2
  have hds : sStab fm.description := sStab_of_lookup hst hl2
  have hver : ∀ v, fm.version = some v → sStab v ∧ semverOK v = true := by
    intro v hv
    rcases parseVersionField_inv q3 with h0 | ⟨v', hv', hl, hsem⟩
    · rw [hv] at h0
      exact Option.noConfusion h0
    · rw [hv] at hv'
      have he := Option.some.inj hv'
      rw [he]
      exact ⟨sStab_of_lookup hst hl, hsem⟩
  have htools : ∀ ts, fm.allowedTools = some ts →
      ∃ s0, sStab s0 ∧ ts = (jsSplit ',' s0).map jsTrim := by
    intro ts hts
    rcases parseToolsField_inv q6 with h0 | ⟨s0, hl, ho⟩
    · rw [hts] at h0
      exact Option.noConfusion h0
    · rw [hts] at ho
      exact ⟨s0, sStab_of_lookup hst hl, Option.some.inj ho⟩
  have hah : ∀ v, fm.argumentHint = some v → sStab v := by
    intro v hv
    rcases parseOptStr_inv q7 with h0 | ⟨v', hv', hl⟩
    · rw [hv] at h0
      exact Option.noConfusion h0
    · rw [hv] at hv'
      rw [Option.some.inj hv']
      exact sStab_of_lookup hst hl
  have hmo : ∀ v, fm.model = some v → sStab v := by
    intro v hv
    rcases parseOptStr_inv q8 with h0 | ⟨v', hv', hl⟩
    · rw [hv] at h0
      exact Option.noConfusion h0
    · rw [hv] at hv'
      rw [Option.some.inj hv']
      exact sStab_of_lookup hst hl
  have hag : ∀ v, fm.agent = some v → sStab v := by
    intro v hv
    rcases parseOptStr_inv q10 with h0 | ⟨v', hv', hl⟩
    · rw [hv] at h0
      exact Option.noConfusion h0
    · rw [hv] at hv'
      rw [Option.some.inj hv']
      exact sStab_of_lookup hst hl
  have hbody : jsTrim body = body := by
    rw [hb]
    exact jsTrim_idem content
  have hgen : genYamlLines fm.toPartial ≠ [] :=
    genYamlLines_toPartial_ne_nil fm hnm.2.1
  have hnl : ∀ b ∈ genBlocks fm.toPartial, ∀ s, b.2 = some s →
      '\n' ∉ s.data := by
    refine genBlocks_no_newline fm hnm.2.2.2.2.2 hds.2.2.2.2.2 ?_ ?_ ?_ ?_ ?_
    · exact fun v hv => (hver v hv).1.2.2.2.2.2
    · intro ts hts
      obtain ⟨s0, hs0, hts2⟩ := htools ts hts
      rw [hts2]
      exact split_trim_no_newline hs0.2.2.2.2.2
    · exact fun v hv => (hah v hv).2.2.2.2.2
    · exact fun v hv => (hmo v hv).2.2.2.2.2
    · exact fun v hv => (hag v hv).2.2.2.2.2
  have hmp := matterParse_generate fm.toPartial body hgen hnl
  unfold parseSkillMd
  rw [hmp]
  show (match skillFrontmatterSchema (kvsOf (genBlocks fm.toPartial)) with
    | none => none
    | some fm2 =>
      some (fm2, jsTrim (String.mk ('\n' :: (body.data ++ ['\n']))))) =
    some (fm, body)
  rw [schema_reparse fm hnm hnc1 hds hdl hver htools hah hmo hag
    hlic hau hkw hrep]
  show some (fm, jsTrim (String.mk ('\n' :: (body.data ++ ['\n'])))) =
    some (fm, body)
  rw [jsTrim_wrap body hbody]

/-! ## Claim theorems -/

/-- C2: every sequence of install and uninstall operations preserves the
invariant that the manifest has at most one entry per name (hence per
`(name, scope)` pair); a successful install leaves exactly one entry for
the installed name (replaced in place, never duplicated) and changes no
other name's count; a successful uninstall leaves no entry for the name. -/
theorem manifest_unique_per_name :
    (∀ (scope : Scope) (ops : List Op) (fs : FsState),
        manifestInv fs → manifestInv (applyOps scope ops fs))
    ∧ (∀ (scope : Scope) (name content : String) (force : Bool)
        (src : SkillSource) (now : String) (fs fs' : FsState),
        manifestInv fs →
        installSkill scope name content force src now fs = Except.ok fs' →
        countName name fs' = 1 ∧
          ∀ other, other ≠ name → countName other fs' = countName other fs)
    ∧ (∀ (name : String) (fs fs' : FsState),
        uninstallSkill name fs = Except.ok fs' → countName name fs' = 0) := by
  refine ⟨?_, ?_, ?_⟩
  · intro scope ops fs h
    induction ops generalizing fs with
    | nil => exact h
    | cons op ops ih =>
      exact ih (applyOp scope fs op) (manifestInv_applyOp scope fs op h)
  · intro scope name content force src now fs fs' hinv h
    have hm := installSkill_ok_manifest h
    have hle : ((getManifest fs).skills.filter (fun s => s.name == name)).length ≤ 1 := by
      rw [← countName_eq_getManifest]
      exact manifestInv_le_one name fs hinv
    constructor
    · simp only [countName, hm]
      exact upsertEntry_count_self _ name _ rfl hle
    · intro other hne
      have h1 : countName other fs' =
          ((getManifest fs).skills.filter (fun s => s.name == other)).length := by
        simp only [countName, hm]
        exact upsertEntry_count_other _ name _ other rfl hne
      rw [h1, ← countName_eq_getManifest]
  · intro name fs fs' h
    rw [uninstallSkill_ok_eq h]
    unfold removeFromManifest countName
    cases hm : fs.manifest with
    | stored m =>
      simp only [hm]
      have hnil : (m.skills.filter (fun s => s.name ≠ name)).filter
          (fun s => s.name == name) = [] := by
        rw [List.filter_eq_nil_iff]
        intro s hs
        have hsne : s.name ≠ name := by
          have := (List.mem_filter.mp hs).2
          simpa using this
        simp [hsne]
      simp [hnil]
    | absent => simp [hm]
    | corrupt => simp [hm]

/-- C2 witness: the invariant preservation applied to a concrete state and
a concrete install/uninstall sequence. -/
theorem manifest_unique_per_name_witness :
    manifestInv exFsDemo ∧
      manifestInv (applyOps Scope.project
        [Op.install "x" "c" false exSource "t1", Op.uninstall "demo"] exFsDemo) :=
  ⟨by decide,
    manifest_unique_per_name.1 Scope.project
      [Op.install "x" "c" false exSource "t1", Op.uninstall "demo"] exFsDemo
      (by decide)⟩

/-- C3 counterexample: force-installing `demo` over a directory that also
contains `notes.txt` rewrites `SKILL.md` verbatim but leaves the stale
`notes.txt` in place, so the directory content is not "fully replaced with
the given content" as the claim states. -/
theorem installSkill_force_counterexample :
    (installSkill Scope.project "demo" "new content" true exSource "t1"
        exFsDemo).toOption.map (readSkillFile "demo" "notes.txt") =
      some (some "keep")
    ∧ (installSkill Scope.project "demo" "new content" true exSource "t1"
        exFsDemo).toOption.map (readSkillFile "demo" "SKILL.md") =
      some (some "new content") := by
  constructor <;> decide

/-- C3 (amended): without force an existing skill directory makes install
throw `Conflict`; with force the install succeeds, the `SKILL.md` file is
overwritten with the given content verbatim (other files in the directory
are untouched), and the count of manifest entries for the name stays 1. -/
theorem installSkill_conflict_and_force :
    ∀ (scope : Scope) (name content : String) (src : SkillSource)
      (now : String) (fs : FsState),
      (dirExists name fs = true →
        installSkill scope name content false src now fs =
          Except.error SkillErr.conflict)
      ∧ ((installSkill scope name content true src now fs).isOk = true)
      ∧ (∀ fs', installSkill scope name content true src now fs = Except.ok fs' →
          readSkillFile name "SKILL.md" fs' = some content
          ∧ (countName name fs = 1 → countName name fs' = 1)) := by
  intro scope name content src now fs
  refine ⟨?_, ?_, ?_⟩
  · intro h
    rw [installSkill_noforce_eq, if_pos h]
  · rw [installSkill_force_eq]
    rfl
  · intro fs' h
    constructor
    · rw [installSkill_ok_eq h]
      show readSkillFile name "SKILL.md"
        (writeSkillFile name "SKILL.md" content (ensureDir name fs)) = some content
      exact readSkillFile_write_self name "SKILL.md" content _
        (ensureDir_lookup_isSome name fs)
    · intro h1
      have hm := installSkill_ok_manifest h
      simp only [countName, hm]
      refine upsertEntry_count_self _ name _ rfl ?_
      rw [← countName_eq_getManifest, h1]

/-- C3 witness: the conflict arm applied at a concrete state. -/
theorem installSkill_conflict_and_force_witness :
    dirExists "demo" exFsDemo = true ∧
      installSkill Scope.project "demo" "c" false exSource "t1" exFsDemo =
        Except.error SkillErr.conflict :=
  ⟨by decide,
    (installSkill_conflict_and_force Scope.project "demo" "c" exSource "t1"
      exFsDemo).1 (by decide)⟩

/-- C5: uninstalling a missing skill throws `NotFound`; uninstalling an
existing one succeeds, removes the directory, filters the entry out of a
stored manifest, and is a manifest no-op when the lock file is absent or
unreadable. -/
theorem uninstall_removes_dir_and_entry :
    ∀ (name : String) (fs : FsState),
      (dirExists name fs = false →
        uninstallSkill name fs = Except.error SkillErr.notFound)
      ∧ (dirExists name fs = true → (uninstallSkill name fs).isOk = true)
      ∧ (∀ fs', uninstallSkill name fs = Except.ok fs' →
          dirExists name fs' = false
          ∧ (fs.manifest = ManifestFile.absent →
              fs'.manifest = ManifestFile.absent)
          ∧ (fs.manifest = ManifestFile.corrupt →
              fs'.manifest = ManifestFile.corrupt)
          ∧ (∀ m, fs.manifest = ManifestFile.stored m →
              fs'.manifest = ManifestFile.stored
                ⟨m.version, m.skills.filter (fun s => s.name ≠ name)⟩)) := by
  intro name fs
  refine ⟨?_, ?_, ?_⟩
  · intro h
    unfold uninstallSkill
    rw [h]
    rfl
  · intro h
    unfold uninstallSkill
    rw [h]
    rfl
  · intro fs' h
    rw [uninstallSkill_ok_eq h]
    refine ⟨?_, ?_, ?_, ?_⟩
    · unfold dirExists
      rw [removeFromManifest_dirs]
      show ((fs.dirs.filter (fun p => p.1 ≠ name)).lookup name).isSome = false
      rw [lookup_filter_ne]
      rfl
    · intro hm
      unfold removeFromManifest
      simp only [hm]
    · intro hm
      unfold removeFromManifest
      simp only [hm]
    · intro m hm
      unfold removeFromManifest
      simp only [hm]

/-- C5 witness: uninstalling the concrete `demo` skill succeeds. -/
theorem uninstall_removes_dir_and_entry_witness :
    dirExists "demo" exFsDemo = true ∧
      (uninstallSkill "demo" exFsDemo).isOk = true :=
  ⟨by decide, (uninstall_removes_dir_and_entry "demo" exFsDemo).2.1 (by decide)⟩

/-- C10: the no-force conflict check of `installSkill` tests directory
existence while `skillExists` tests for the `SKILL.md` file inside it;
`skillExists` implies `dirExists`, and on a state with a skill directory
lacking `SKILL.md` a non-forced install throws `Conflict` even though
`skillExists` is false. -/
theorem installConflict_vs_skillExists :
    (∀ (scope : Scope) (name content : String) (src : SkillSource)
      (now : String) (fs : FsState),
        (installSkill scope name content false src now fs =
          Except.error SkillErr.conflict) ↔ dirExists name fs = true)
    ∧ (∀ (name : String) (fs : FsState),
        skillExists name fs = true → dirExists name fs = true)
    ∧ (dirExists "ghost" exFsGhost = true
        ∧ skillExists "ghost" exFsGhost = false
        ∧ installSkill Scope.project "ghost" "c" false exSource "t" exFsGhost =
            Except.error SkillErr.conflict) := by
  refine ⟨?_, ?_, by decide, by decide, by decide⟩
  · intro scope name content src now fs
    rw [installSkill_noforce_eq]
    by_cases h : dirExists name fs
    · simp [h]
    · simp [h]
  · intro name fs h
    unfold skillExists at h
    unfold dirExists
    cases hl : fs.dirs.lookup name with
    | some d => simp
    | none => rw [hl] at h; simp at h

/-- C10 witness: the implication from `skillExists` to `dirExists` applied
at a concrete state. -/
theorem installConflict_vs_skillExists_witness :
    skillExists "demo" exFsDemo = true ∧ dirExists "demo" exFsDemo = true :=
  ⟨by decide, installConflict_vs_skillExists.2.1 "demo" exFsDemo (by decide)⟩

/-- C1 counterexample: the input `github.com/foo/bar` contains the host
token but is not a well-formed URL, and classification throws (the `new
URL` call of the second branch) instead of classifying it — the resolver
is not total. -/
theorem resolver_throws_counterexample :
    parseSkillSpecifier "github.com/foo/bar" = none := by decide

/-- C1 (amended): the specifier resolver classifies every input string that
carries the `github:` prefix or does not contain the substring `github.com`
into exactly one tagged variant and never fails on them; an input that
contains `github.com` without the prefix is handed to `new URL()`, and the
resolver throws whenever that platform call rejects the string (as it does
for `github.com/foo/bar`, which has no scheme — the counterexample). -/
theorem resolver_total_amended :
    ∀ s : String,
      jsStartsWith "github:" s = true ∨ jsIncludes s "github.com" = false →
      (parseSkillSpecifier s).isSome = true := by
  intro s hbr
  unfold parseSkillSpecifier
  by_cases h1 : jsStartsWith "github:" s = true
  · simp [h1]
  · have h1f : jsStartsWith "github:" s = false := by
      cases hb : jsStartsWith "github:" s with
      | true => exact absurd hb h1
      | false => rfl
    have h2f : jsIncludes s "github.com" = false := by
      rcases hbr with hp | hi
      · exact absurd hp h1
      · exact hi
    · simp only [h1f, h2f, Bool.false_eq_true, if_false]
      by_cases h3 : (jsStartsWith "http://" s || jsStartsWith "https://" s) = true
      · simp [h3]
      · simp only [Bool.not_eq_true] at h3
        simp only [h3, Bool.false_eq_true, if_false]
        by_cases h4 : (jsStartsWith "./" s || jsStartsWith "/" s
            || jsStartsWith "../" s) = true
        · simp [h4]
        · simp only [Bool.not_eq_true] at h4
          simp only [h4, Bool.false_eq_true, if_false]
          by_cases h5 : jsIncludes s "/" = true
          · simp [h5]
          · simp only [Bool.not_eq_true] at h5
            simp only [h5, Bool.false_eq_true, if_false]
            by_cases h6 : uuidPattern s = true
            · simp [h6]
            · simp only [Bool.not_eq_true] at h6
              simp [h6]

/-- C1 witness: the amended totality applied to a bare `owner/repo`
specifier, which contains no `github.com` token. -/
theorem resolver_total_amended_witness :
    (jsStartsWith "github:" "acme/widgets" = true ∨
      jsIncludes "acme/widgets" "github.com" = false) ∧
    (parseSkillSpecifier "acme/widgets").isSome = true :=
  ⟨Or.inr (by decide),
    resolver_total_amended "acme/widgets" (Or.inr (by decide))⟩

/-- C6: hosted-prefix parsing (the spec's `hosted:` prefix is the source's
`github:` literal): for all owner and repo segments containing no `/` or
`@`, `github:owner/repo` resolves to the hosted-ref variant with exactly
that owner and repo and no ref or subpath; and scenario A,
`github:acme/widgets@v2/tools/lint`, resolves to owner `acme`, repo
`widgets`, ref `v2`, subpath `tools/lint`. -/
theorem hosted_shorthand_resolution :
    (∀ owner repo : String,
        '/' ∉ owner.data → '@' ∉ owner.data → '/' ∉ repo.data → '@' ∉ repo.data →
        parseSkillSpecifier ("github:" ++ owner ++ "/" ++ repo) =
          some (ParsedSource.github owner (some repo) none none))
    ∧ parseSkillSpecifier "github:acme/widgets@v2/tools/lint" =
        some (ParsedSource.github "acme" (some "widgets") (some "v2")
          (some "tools/lint")) := by
  constructor
  · intro owner repo ho ha hr hra
    have hassoc : "github:" ++ owner ++ "/" ++ repo =
        "github:" ++ (owner ++ "/" ++ repo) := by
      apply str_ext
      simp [str_data_append, List.append_assoc]
    rw [hassoc]
    have h1 : jsStartsWith "github:" ("github:" ++ (owner ++ "/" ++ repo)) = true := by
      unfold jsStartsWith
      refine List.isPrefixOf_iff_prefix.mpr ?_
      rw [str_data_append]
      exact List.prefix_append _ _
    have h2 : strDrop 7 ("github:" ++ (owner ++ "/" ++ repo)) =
        owner ++ "/" ++ repo := by
      unfold strDrop
      rw [str_data_append]
      have h7 : (7 : Nat) = ("github:" : String).data.length := rfl
      rw [h7, List.drop_left]
    unfold parseSkillSpecifier
    rw [if_pos h1, h2, parseGithubShorthand_pair owner repo ho ha hr hra]
  · decide

/-- C6 witness: the universal arm applied to concrete owner and repo. -/
theorem hosted_shorthand_resolution_witness :
    parseSkillSpecifier ("github:" ++ "acme" ++ "/" ++ "widgets") =
      some (ParsedSource.github "acme" (some "widgets") none none) :=
  hosted_shorthand_resolution.1 "acme" "widgets" (by decide) (by decide)
    (by decide) (by decide)

/-- C7: every string matching the UUID v4-shaped pattern resolves to the
registry variant whose id is the input verbatim; no earlier classification
rule can capture it because its characters are hexadecimal digits and
hyphens only. -/
theorem uuid_resolves_to_registry :
    ∀ s : String, uuidPattern s = true →
      parseSkillSpecifier s = some (ParsedSource.registry s) := by
  intro s h
  have hg : 'g' ∉ s.data := uuidPattern_no_char h (by decide) (by decide)
  have hh : 'h' ∉ s.data := uuidPattern_no_char h (by decide) (by decide)
  have hdot : '.' ∉ s.data := uuidPattern_no_char h (by decide) (by decide)
  have hsl : '/' ∉ s.data := uuidPattern_no_char h (by decide) (by decide)
  have h1 : jsStartsWith "github:" s = false :=
    jsStartsWith_eq_false_of_not_mem (by decide) hg
  have h2 : jsIncludes s "github.com" = false :=
    jsIncludes_eq_false_of_not_mem (by decide) hg
  have h3 : jsStartsWith "http://" s = false :=
    jsStartsWith_eq_false_of_not_mem (by decide) hh
  have h4 : jsStartsWith "https://" s = false :=
    jsStartsWith_eq_false_of_not_mem (by decide) hh
  have h5 : jsStartsWith "./" s = false :=
    jsStartsWith_eq_false_of_not_mem (by decide) hdot
  have h6 : jsStartsWith "/" s = false :=
    jsStartsWith_eq_false_of_not_mem (by decide) hsl
  have h7 : jsStartsWith "../" s = false :=
    jsStartsWith_eq_false_of_not_mem (by decide) hdot
  have h8 : jsIncludes s "/" = false :=
    jsIncludes_eq_false_of_not_mem (by decide) hsl
  unfold parseSkillSpecifier
  simp [h1, h2, h3, h4, h5, h6, h7, h8, h]

/-- C7 witness: a concrete UUID resolves to the registry variant. -/
theorem uuid_resolves_to_registry_witness :
    parseSkillSpecifier "123e4567-e89b-42d3-a456-426614174000" =
      some (ParsedSource.registry "123e4567-e89b-42d3-a456-426614174000") :=
  uuid_resolves_to_registry "123e4567-e89b-42d3-a456-426614174000" (by decide)

/-- C8 counterexample: with search results `[⟨"1","zz","zz"⟩, ⟨"2","yy","ABC"⟩]`
for the term `abc`, the second result's slug matches `abc` case-insensitively,
yet the fetcher's slug comparison is case-sensitive: it selects the first
result (id `1`) and emits the ambiguity warning, contradicting the claim
that a case-insensitive title-or-slug match is selected when one exists. -/
theorem registry_slug_case_counterexample :
    fetchFromRegistry exClientAmb "abc" =
      Except.ok ⟨"zz", "C1", "1", true, [("abc", 5)]⟩
    ∧ strToLower "ABC" = strToLower "abc"
    ∧ ("ABC" : String) ≠ "abc"
    ∧ isExactMatch "abc" ⟨"2", "yy", "ABC"⟩ = false := by
  refine ⟨by decide, by decide, by decide, by decide⟩

/-- C8 (amended): on a non-UUID term the fetcher performs exactly one
search capped at 5 results; zero results throw `NotFound`; otherwise it
selects the first result with an exact case-insensitive title match or an
exact case-sensitive slug match when one exists (no warning), else the
first result, warning precisely when more than one result came back; the
downloaded content is fetched by the selected result's id. -/
theorem registry_search_selection :
    ∀ (client : RegistryClient) (registryId : String),
      uuidPattern registryId = false →
      (client.searchWorkflows registryId 5 = [] →
        fetchFromRegistry client registryId = Except.error FetchErr.notFound)
      ∧ (∀ r, fetchFromRegistry client registryId = Except.ok r →
          r.searchCalls = [(registryId, 5)]
          ∧ r.content = client.downloadWorkflow r.workflowId
          ∧ (∀ w, (client.searchWorkflows registryId 5).find?
                (isExactMatch registryId) = some w →
              r.workflowId = w.id ∧ r.warned = false)
          ∧ ((client.searchWorkflows registryId 5).find?
                (isExactMatch registryId) = none →
              ∀ w0 t, client.searchWorkflows registryId 5 = w0 :: t →
                r.workflowId = w0.id
                ∧ r.warned =
                    decide ((client.searchWorkflows registryId 5).length > 1))) := by
  intro client registryId h
  constructor
  · intro hres
    exact fetchFromRegistry_empty client registryId h hres
  · intro r hr
    cases hres : client.searchWorkflows registryId 5 with
    | nil =>
      rw [fetchFromRegistry_empty client registryId h hres] at hr
      exact absurd hr (by simp)
    | cons w0 t =>
      cases hfind : (w0 :: t).find? (isExactMatch registryId) with
      | some w =>
        rw [fetchFromRegistry_found client registryId w0 w t h hres hfind] at hr
        have hrr := (Except.ok.inj hr).symm
        refine ⟨by rw [hrr], by rw [hrr], ?_, ?_⟩
        · intro w' hw'
          cases Option.some.inj hw'
          exact ⟨by rw [hrr], by rw [hrr]⟩
        · intro habs
          exact absurd habs (by simp)
      | none =>
        rw [fetchFromRegistry_first client registryId w0 t h hres hfind] at hr
        have hrr := (Except.ok.inj hr).symm
        refine ⟨by rw [hrr], by rw [hrr], ?_, ?_⟩
        · intro w' hw'
          exact absurd hw' (by simp)
        · intro _ w0' t' hres'
          cases hres'
          exact ⟨by rw [hrr], by rw [hrr]⟩

/-- C8 witness: an empty search throws `NotFound`. -/
theorem registry_search_selection_witness :
    uuidPattern "tool" = false ∧
      fetchFromRegistry exClientEmpty "tool" = Except.error FetchErr.notFound :=
  ⟨by decide, (registry_search_selection exClientEmpty "tool" (by decide)).1 rfl⟩

/-- C9: evaluation of the parser at the failing input — a document with a
valid header and an empty body is accepted by `parse` and yields an empty
body, although the repo's own `SkillSchema` declares `content` with
minimum length 1 (`'Skill content is required'`); that schema is declared
but never applied by `SkillParser.parse`. -/
theorem parse_accepts_empty_body :
    parseSkillMd exDocEmptyBody = some (exFmEmptyBody, "") := by decide

/-- C4 counterexample: the claim says every defined header field, including
`license`, `author`, `keywords` and `repository`, survives
`generate(parse(d).header, parse(d).body)`.  A document with `license: MIT`
parses to a frontmatter with the license set, but the generator emits no
`license` line, so reparsing the regenerated document yields a frontmatter
whose license is gone. -/
theorem roundtrip_license_counterexample :
    parseSkillMd exDocLicense = some (exFmLicense, "Body text here.") ∧
    parseSkillMd (generateSkillMd exFmLicense.toPartial "Body text here.") =
      some (exFmNoLicense, "Body text here.") ∧
    exFmNoLicense ≠ exFmLicense :=
  ⟨by decide, by decide, by decide⟩

/-- C4 (corrected): for every accepted document that lies in the
plain-scalar fragment (`plainFrontmatter`: every header string value is an
unquoted single-line scalar over lowercase letters, digits, spaces and
`, . _ / -`, letter-initial or semver-shaped, and not a YAML boolean/null
word), regenerating it with `generateSkillMd` from the parsed frontmatter
and body and parsing again returns exactly the same frontmatter and body,
provided the parsed frontmatter also defines none of `license`, `author`,
`keywords` and `repository` — the four fields the generator never emits
(the counterexample shows a parsed `license` is dropped).  The fragment
hypothesis confines the statement to documents on which the embedded
parser agrees with `gray-matter`/`js-yaml`; it is not consumed by the
proof, which lives inside the fragment.  Outside the fragment the round
trip also genuinely fails: a quoted scalar such as `model: 'true'` is
parsed as the string `true` but re-emitted unquoted, so reparsing retypes
it to a boolean and the schema rejects the regenerated document. -/
theorem skill_roundtrip_amended (d : String) (fm : SkillFrontmatter)
    (body : String) (h : parseSkillMd d = some (fm, body))
    (_hplain : plainFrontmatter d = true)
    (hlic : fm.license = none) (hau : fm.author = none)
    (hkw : fm.keywords = none) (hrep : fm.repository = none) :
    parseSkillMd (generateSkillMd fm.toPartial body) = some (fm, body) :=
  generate_parse_core d fm body h hlic hau hkw hrep

/-- C4 witness: the round trip at a concrete accepted document inside the
plain-scalar fragment that defines none of the four unemitted fields. -/
theorem skill_roundtrip_amended_witness :
    (parseSkillMd exDocPlain = some (exFmNoLicense, "Body text here.") ∧
      plainFrontmatter exDocPlain = true) ∧
    parseSkillMd (generateSkillMd exFmNoLicense.toPartial "Body text here.") =
      some (exFmNoLicense, "Body text here.") :=
  ⟨⟨by decide, by decide⟩, skill_roundtrip_amended exDocPlain exFmNoLicense
    "Body text here." (by decide) (by decide) rfl rfl rfl rfl⟩

end Outclaw
